import Mathlib

/-!
Verification of the libmimemagic magic-rule compiler (compile.py, generate.py,
utils.py) against its natural-language specification.

The Python sources are shallowly embedded: pure string manipulation is
modelled on lists of characters, byte values are natural numbers, fallible
Python code (uncaught exceptions) is modelled with Option or an explicit
result type, and the mutating tree passes of compile.py are modelled as
pure functions on an inductive rule tree.  Each definition carries a note
naming the Python function it translates.
-/

namespace Mimemagic

/-- Characters matched by Python's whitespace class (str.split(None), regex
backslash-s, str.strip): space, tab, newline, carriage return, vertical tab,
form feed. -/
def isPySpace (c : Char) : Bool :=
  c == ' ' || c == '\t' || c == '\n' || c == '\r' || c == '\x0b' || c == '\x0c'

/-- Python str.strip(): drop leading and trailing whitespace. -/
def pyStrip (l : List Char) : List Char :=
  ((l.dropWhile isPySpace).reverse.dropWhile isPySpace).reverse

/-- compile.py stripAllCmnt: re.sub of the anchored pattern backslash-s-star,
then a hash, then a run of non-newline characters, replaced by the empty
string (count 1).  The whitespace run and the hash are disjoint character
classes, so the pattern matches exactly when the first non-whitespace
character of the line is a hash; the matched span then ends at the first
newline at or after the hash (the dot does not match newlines), and sub
keeps the rest of the string. -/
def stripAllCmnt (x : List Char) : List Char :=
  let rest := x.dropWhile isPySpace
  if rest.head? == some '#' then rest.dropWhile (fun c => !(c == '\n')) else x

/-- Outcome of running a fallible (or possibly non-terminating) piece of the
Python source: a normal result, an uncaught ValueError, or divergence. -/
inductive PyResult (α : Type) where
  | ok (val : α)
  | valueError
  | diverge
deriving Repr, DecidableEq

/-- Prepend a byte to a successful scan, keeping failure outcomes. -/
def PyResult.consByte (b : Nat) : PyResult (List Nat) → PyResult (List Nat)
  | .ok bs => .ok (b :: bs)
  | .valueError => .valueError
  | .diverge => .diverge

/-- utils.py cEscapes: the single-character escape table used by
splitStringBytes, as letter to byte value. -/
def cEscapes (c : Char) : Option Nat :=
  if c == 'a' then some 7
  else if c == 'b' then some 8
  else if c == 'f' then some 12
  else if c == 'n' then some 10
  else if c == 'r' then some 13
  else if c == 't' then some 9
  else if c == 'v' then some 11
  else if c == '\\' then some 92
  else none

/-- Python string.hexdigits membership. -/
def isHexDig (c : Char) : Bool :=
  c.isDigit || ('a' ≤ c && c ≤ 'f') || ('A' ≤ c && c ≤ 'F')

/-- Value of one hexadecimal digit character. -/
def hexVal (c : Char) : Nat :=
  if c.isDigit then c.toNat - 48
  else if 'a' ≤ c && c ≤ 'f' then c.toNat - 87
  else c.toNat - 55

/-- Membership in the Python literal 01234567 used for octal escapes. -/
def isOctDig (c : Char) : Bool :=
  '0' ≤ c && c ≤ '7'

/-- Value of a string of octal digit characters, as int(v, 8) computes it. -/
def octVal (l : List Char) : Nat :=
  l.foldl (fun a c => a * 8 + (c.toNat - 48)) 0

/-- Dropping a prefix never lengthens a list (termination helper). -/
theorem dropWhile_length_le (p : α → Bool) (l : List α) :
    (l.dropWhile p).length ≤ l.length := by
  induction l with
  | nil => simp
  | cons a as ih =>
    by_cases h : p a
    · rw [List.dropWhile_cons_of_pos h]
      simp only [List.length_cons]
      omega
    · rw [List.dropWhile_cons_of_neg (by simpa using h)]

/-- Helpers for two-component lexicographic termination measures. -/
theorem lex2_of_le_lt {a a2 b b2 : Nat} (h1 : a2 ≤ a) (h2 : b2 < b) :
    Prod.Lex (· < ·) (· < ·) (a2, b2) (a, b) := by
  rcases Nat.lt_or_ge a2 a with h | h
  · exact Prod.Lex.left _ _ h
  · have ha : a2 = a := le_antisymm h1 h
    subst ha
    exact Prod.Lex.right _ h2

theorem lex2_of_lt {a a2 b b2 : Nat} (h1 : a2 < a) :
    Prod.Lex (· < ·) (· < ·) (a2, b2) (a, b) :=
  Prod.Lex.left _ _ h1

mutual

/-- utils.py splitStringBytes: interpret the escape sequences of a target
string, producing one integer byte per character.  The single Python while
loop is split into one Lean function per scanner state: splitStringBytes
scans plain characters, ssbEscape handles the character after a backslash,
and ssbHex and ssbHex2 grab at most two hex digits after backslash-x.
A backslash that ends the string makes the Python loop append a literal
backslash without ever advancing ix, an infinite loop, modelled as
divergence. -/
def splitStringBytes (l : List Char) : PyResult (List Nat) :=
  match l with
  | [] => .ok []
  | c :: rest =>
    if c == '\\' then ssbEscape rest
    else PyResult.consByte c.toNat (splitStringBytes rest)
termination_by (l.length, 0)
decreasing_by
  · apply lex2_of_lt
    simp
  · apply lex2_of_lt
    simp

/-- The character after a backslash: a table escape yields the table byte;
x starts a hex escape; an octal digit grabs the whole following octal run
and converts it with int(v, 8); anything else is copied literally. -/
def ssbEscape (l : List Char) : PyResult (List Nat) :=
  match l with
  | [] => .diverge
  | c2 :: rest2 =>
    match cEscapes c2 with
    | some b => PyResult.consByte b (splitStringBytes rest2)
    | none =>
      if c2 == 'x' then ssbHex rest2
      else if isOctDig c2 then
        PyResult.consByte (octVal (c2 :: rest2.takeWhile isOctDig))
          (splitStringBytes (rest2.dropWhile isOctDig))
      else PyResult.consByte c2.toNat (splitStringBytes rest2)
termination_by (l.length, 3)
decreasing_by
  · apply lex2_of_lt
    simp
  · apply lex2_of_lt
    simp
  · apply lex2_of_le_lt
    · have := dropWhile_length_le isOctDig rest
      simp
      omega
    · omega

/-- The first hex digit after backslash-x; zero digits reaches int with an
empty string, an uncaught ValueError. -/
def ssbHex (l : List Char) : PyResult (List Nat) :=
  match l with
  | [] => .valueError
  | d1 :: r1 => if isHexDig d1 then ssbHex2 d1 r1 else .valueError
termination_by (l.length, 2)
decreasing_by
  apply lex2_of_le_lt
  · simp
  · omega

/-- The optional second hex digit of a backslash-x escape. -/
def ssbHex2 (d1 : Char) (l : List Char) : PyResult (List Nat) :=
  match l with
  | [] => PyResult.consByte (hexVal d1) (splitStringBytes ([] : List Char))
  | d2 :: r2 =>
    if isHexDig d2 then
      PyResult.consByte (16 * hexVal d1 + hexVal d2) (splitStringBytes r2)
    else
      PyResult.consByte (hexVal d1) (splitStringBytes (d2 :: r2))
termination_by (l.length, 1)
decreasing_by
  · apply lex2_of_le_lt
    · simp
    · omega
  · apply lex2_of_lt
    simp
  · apply lex2_of_le_lt
    · simp
    · omega

end

/-- utils.py cUnescapes: byte values that bytesToC renders with a
single-character escape, as byte to escape letter. -/
def cUnescapes (b : Nat) : Option Char :=
  if b = 7 then some 'a'
  else if b = 8 then some 'b'
  else if b = 12 then some 'f'
  else if b = 10 then some 'n'
  else if b = 13 then some 'r'
  else if b = 9 then some 't'
  else if b = 11 then some 'v'
  else if b = 92 then some '\\'
  else if b = 34 then some '"'
  else none

/-- Lowercase hexadecimal digit character, as the percent-02x format uses. -/
def hexDigChar (n : Nat) : Char :=
  if n < 10 then Char.ofNat (48 + n) else Char.ofNat (87 + n)

/-- The four-character hex insert backslash-x-digit-digit emitted by
bytesToC for a byte that needs a hex escape. -/
def hexFrag (b : Nat) : List Char :=
  ['\\', 'x', hexDigChar (b / 16), hexDigChar (b % 16)]

/-- The loop of utils.py bytesToC: walk the byte list with the current
fragment as accumulator; a table byte appends its escape to the fragment, a
printable byte appends itself, and any other byte flushes the fragment and
adds a standalone hex fragment.  Python 2 chr(b) raises ValueError for
b at or above 256, modelled as none. -/
def bytesToCLoop : List Nat → List Char → Option (List (List Char))
  | [], part => some (if part.isEmpty then [] else [part])
  | b :: bs, part =>
    if 256 ≤ b then none
    else
      match cUnescapes b with
      | some k => bytesToCLoop bs (part ++ ['\\', k])
      | none =>
        if 32 ≤ b && b < 128 then bytesToCLoop bs (part ++ [Char.ofNat b])
        else
          (fun parts => (if part.isEmpty then [] else [part]) ++ hexFrag b :: parts) <$>
            bytesToCLoop bs []

/-- Python " ".join on a list of fragments. -/
def joinSpace : List (List Char) → List Char
  | [] => []
  | [p] => p
  | p :: ps => p ++ ' ' :: joinSpace ps

/-- Wrap one fragment in double quotes. -/
def quoteWrap (p : List Char) : List Char :=
  '"' :: (p ++ ['"'])

/-- utils.py bytesToC: run the fragment loop, drop empty fragments, quote
each fragment, and join the quoted fragments with single spaces. -/
def bytesToC (bs : List Nat) : Option (List Char) :=
  (bytesToCLoop bs []).map
    (fun parts => joinSpace ((parts.filter (fun p => !p.isEmpty)).map quoteWrap))

/-- utils.py quoteForC: splitStringBytes followed by bytesToC; any uncaught
exception or divergence in either step is propagated as none. -/
def quoteForC (text : List Char) : Option (List Char) :=
  match splitStringBytes text with
  | .ok bs => bytesToC bs
  | .valueError => none
  | .diverge => none

/-- quoteForC on Lean strings, for the code generator model. -/
def quoteForCStr (s : String) : Option String :=
  (quoteForC s.toList).map (fun l => String.mk l)

/-- Single-character escapes of C string literals (the spec side of the
round-trip claim): the standard letter escapes plus quote, double quote and
backslash. -/
def cEscMapParse (c : Char) : Option Nat :=
  if c == 'a' then some 7
  else if c == 'b' then some 8
  else if c == 'f' then some 12
  else if c == 'n' then some 10
  else if c == 'r' then some 13
  else if c == 't' then some 9
  else if c == 'v' then some 11
  else if c == '\\' then some 92
  else if c == '"' then some 34
  else if c == '\x27' then some 39
  else none

/-- Value of a string of hexadecimal digit characters. -/
def hexListVal (l : List Char) : Nat :=
  l.foldl (fun a c => a * 16 + hexVal c) 0

/-- Value of up to three octal digit characters of a C octal escape. -/
def octEscVal (l : List Char) : Nat :=
  l.foldl (fun a c => a * 8 + (c.toNat - 48)) 0

mutual

/-- Parser for a sequence of space-separated, implicitly concatenated C
string literals, written from the claim and split by scanner state.
Outside a fragment spaces are skipped and a double quote opens a
fragment. -/
def clpOut (l : List Char) : Option (List Nat) :=
  match l with
  | [] => some []
  | c :: rest =>
    if c == ' ' then clpOut rest
    else if c == '"' then clpIn rest
    else none
termination_by (l.length, 0)
decreasing_by
  · apply lex2_of_lt
    simp
  · apply lex2_of_lt
    simp

/-- Inside a fragment a double quote closes it, a backslash starts an
escape, and any other character stands for its own code. -/
def clpIn (l : List Char) : Option (List Nat) :=
  match l with
  | [] => none
  | c :: rest =>
    if c == '"' then clpOut rest
    else if c == '\\' then clpEsc rest
    else (fun bs => c.toNat :: bs) <$> clpIn rest
termination_by (l.length, 0)
decreasing_by
  · apply lex2_of_lt
    simp
  · apply lex2_of_lt
    simp
  · apply lex2_of_lt
    simp

/-- After a backslash inside a fragment: backslash-x absorbs every
following hexadecimal digit, an octal digit absorbs up to three octal
digits, and the single-character escapes follow the standard C table. -/
def clpEsc (l : List Char) : Option (List Nat) :=
  match l with
  | [] => none
  | e :: r1 =>
    if e == 'x' then
      let digs := r1.takeWhile isHexDig
      if digs.isEmpty then none
      else (fun bs => hexListVal digs :: bs) <$> clpIn (r1.dropWhile isHexDig)
    else if isOctDig e then clpOct1 e r1
    else
      match cEscMapParse e with
      | some v => (fun bs => v :: bs) <$> clpIn r1
      | none => none
termination_by (l.length, 0)
decreasing_by
  · apply lex2_of_lt
    have := dropWhile_length_le isHexDig rest
    simp
    omega
  · apply lex2_of_lt
    simp
  · apply lex2_of_lt
    simp

/-- One octal digit seen; absorb up to two more. -/
def clpOct1 (e : Char) (l : List Char) : Option (List Nat) :=
  match l with
  | [] => (fun bs => octEscVal [e] :: bs) <$> clpIn []
  | d1 :: r2 =>
    if isOctDig d1 then clpOct2 e d1 r2
    else (fun bs => octEscVal [e] :: bs) <$> clpIn (d1 :: r2)
termination_by (l.length, 1)
decreasing_by
  · apply lex2_of_le_lt
    · simp
    · omega
  · apply lex2_of_lt
    simp
  · apply lex2_of_le_lt
    · simp
    · omega

/-- Two octal digits seen; absorb up to one more. -/
def clpOct2 (e d1 : Char) (l : List Char) : Option (List Nat) :=
  match l with
  | [] => (fun bs => octEscVal [e, d1] :: bs) <$> clpIn []
  | d2 :: r3 =>
    if isOctDig d2 then (fun bs => octEscVal [e, d1, d2] :: bs) <$> clpIn r3
    else (fun bs => octEscVal [e, d1] :: bs) <$> clpIn (d2 :: r3)
termination_by (l.length, 1)
decreasing_by
  · apply lex2_of_le_lt
    · simp
    · omega
  · apply lex2_of_lt
    simp
  · apply lex2_of_le_lt
    · simp
    · omega

end

/-- The full parser: the state flag selects the scanner state. -/
def cLiteralParse (l : List Char) (inFrag : Bool) : Option (List Nat) :=
  if inFrag then clpIn l else clpOut l

/-- A rendered chunk inside a fragment parses context-freely to its bytes:
prefixing it to any fragment remainder prefixes its bytes to the parse. -/
def ChunkParse (p : List Char) (bs : List Nat) : Prop :=
  ∀ rest, clpIn (p ++ rest) = (clpIn rest).map (fun tail => bs ++ tail)

/-- A fragment body parses to its bytes when closed by its double quote,
handing the remainder back to the outside state. -/
def FragParse (p : List Char) (bs : List Nat) : Prop :=
  ∀ rest, clpIn (p ++ '"' :: rest) = (clpOut rest).map (fun tail => bs ++ tail)

/-- Digit value of one character in the given base, if valid. -/
def digitVal (base : Nat) (c : Char) : Option Nat :=
  let v :=
    if c.isDigit then some (c.toNat - 48)
    else if 'a' ≤ c && c ≤ 'z' then some (c.toNat - 87)
    else if 'A' ≤ c && c ≤ 'Z' then some (c.toNat - 55)
    else none
  match v with
  | some n => if n < base then some n else none
  | none => none

/-- All-digits numeral in the given base; none when empty or when a
character is not a digit of the base. -/
def parseDigitsBase (base : Nat) (l : List Char) : Option Nat :=
  match l with
  | [] => none
  | _ =>
    l.foldl
      (fun acc c =>
        match acc, digitVal base c with
        | some a, some d => some (a * base + d)
        | _, _ => none)
      (some 0)

/-- Python 2 int(x, 0) on the unsigned numeric tokens that become test
limits (a limit token always begins with a digit, so signs and surrounding
whitespace do not arise): a 0x or 0X prefix selects base 16, 0o or 0O base
8, 0b or 0B base 2, a bare leading zero the legacy octal base 8 (so 010 is
eight and 08 raises ValueError), everything else base 10; an unparsable
token raises ValueError, modelled as none. -/
def pyIntBase0 (s : String) : Option Nat :=
  match s.toList with
  | [] => none
  | ['0'] => some 0
  | '0' :: c :: rest =>
    if c == 'x' || c == 'X' then parseDigitsBase 16 rest
    else if c == 'o' || c == 'O' then parseDigitsBase 8 rest
    else if c == 'b' || c == 'B' then parseDigitsBase 2 rest
    else parseDigitsBase 8 (c :: rest)
  | l => parseDigitsBase 10 l

/-- compile.py Test.integerTests: the numeric test codes. -/
def integerTests : List String :=
  ["byte", "short", "leshort", "beshort", "long", "lelong", "belong",
   "quad", "lequad", "bequad"]

/-- compile.py Test.setPriority, as a function of the test code and the
textual test limit.  The search branch evaluates
int(self.testLimit, 0) when a limit is present; a ValueError there
(unparsable limit) aborts the call, modelled as none. -/
def setPriority (testCode : String) (testLimit : Option String) : Option Nat :=
  if integerTests.contains testCode then some 0
  else if testCode == "string" then some 5
  else if testCode == "search" then
    match testLimit with
    | none => some 20
    | some s =>
      match pyIntBase0 s with
      | none => none
      | some v => if 5 < v then some 90 else some 20
  else if testCode == "regex" then some 80
  else some 10

/-- The five fields compile.py splitLine extracts from one rule line. -/
structure Fields where
  levels : List Char
  offset : List Char
  test : List Char
  target : List Char
  msg : List Char
deriving Repr, DecidableEq

/-- The levelRE step of compile.py splitLine: the anchored pattern of
optional whitespace, one or more greater-than signs, and the rest of the
line.  On a match the whitespace is discarded, the run of greater-than
signs becomes the levels field and the rest replaces the line; with no
match the line is unchanged.  Faithful for lines that contain no newline
(the physical lines the compiler reads). -/
def stripLevels (l : List Char) : List Char × List Char :=
  let rest := l.dropWhile isPySpace
  match rest with
  | '>' :: _ => (rest.takeWhile (fun c => c == '>'), rest.dropWhile (fun c => c == '>'))
  | _ => ([], l)

/-- Python line.split(None, 1): skip leading whitespace; if nothing is
left, an empty list; otherwise the first whitespace-free token, and, when a
non-whitespace character follows the token and a whitespace run, the
remainder with that run removed. -/
def pySplit1 (l : List Char) : List (List Char) :=
  let l1 := l.dropWhile isPySpace
  match l1 with
  | [] => []
  | _ =>
    let tok := l1.takeWhile (fun c => !isPySpace c)
    let rest := (l1.dropWhile (fun c => !isPySpace c)).dropWhile isPySpace
    if rest.isEmpty then [tok] else [tok, rest]

/-- The target scanner of compile.py splitLine, started outside quoting:
returns the target and the raw message remainder.  A backslash enters the
quoted state; in the quoted state a space is kept in the target without the
backslash and any other character is kept with its backslash; an unquoted
space or tab ends the target, the delimiter itself is dropped, and every
remaining character belongs to the raw message.  A trailing lone backslash
is consumed without output, as the Python loop ends with inQuote set. -/
def scanTarget (l : List Char) : List Char × List Char :=
  match l with
  | [] => ([], [])
  | ['\\'] => ([], [])
  | '\\' :: c :: rest =>
    let tm := scanTarget rest
    if c == ' ' then (' ' :: tm.1, tm.2) else ('\\' :: c :: tm.1, tm.2)
  | c :: rest =>
    if c == ' ' || c == '\t' then ([], rest)
    else
      let tm := scanTarget rest
      (c :: tm.1, tm.2)

/-- compile.py splitLine: strip the level markers, split off the offset
field (the two-element unpacking of line.split(None, 1) raises ValueError
when fewer than two fields remain, modelled as none), split off the test
field, then run the target scanner on the remainder and strip the message
on both sides. -/
def splitLine (line : List Char) : Option Fields :=
  let lv := stripLevels line
  match pySplit1 lv.2 with
  | [offset, rest] =>
    match pySplit1 rest with
    | [] => none
    | [test] =>
      some ⟨lv.1, offset, test, [], []⟩
    | test :: restLine :: _ =>
      let tm := scanTarget restLine
      some ⟨lv.1, offset, test, tm.1, pyStrip tm.2⟩
  | _ => none

/-- compile.py Offset: the parsed offset record.  The claims under
verification never exercise the Offset constructor, so only the stored
fields are modelled; the code generator reads them. -/
structure Offset where
  offset : Option String
  simple : Bool
  noOffset : Bool
  indirect : Bool
  typeFlag : Option String
  operator : Option String
  operand : Option String
  innerRelative : Bool
  outerRelative : Bool
deriving Repr, DecidableEq

/-- The per-node fields of compile.py Test (everything except the subtest
list). -/
structure TestData where
  lnum : Int
  level : Int
  offset : Offset
  unsigned : Bool
  testCode : String
  testFlags : List String
  testMask : Option String
  testLimit : Option String
  target : String
  targetOper : String
  priority : Nat
  setMime : Option String
  active : Bool
deriving Repr, DecidableEq

/-- A node of the rule tree: its fields and its ordered subtests. -/
inductive Test where
  | mk (data : TestData) (subtests : List Test)
deriving Repr

def Test.data : Test → TestData
  | .mk d _ => d

def Test.subtests : Test → List Test
  | .mk _ s => s

def Test.level (t : Test) : Int := t.data.level

def Test.lnum (t : Test) : Int := t.data.lnum

def Test.offset (t : Test) : Offset := t.data.offset

def Test.unsigned (t : Test) : Bool := t.data.unsigned

def Test.testCode (t : Test) : String := t.data.testCode

def Test.testFlags (t : Test) : List String := t.data.testFlags

def Test.testMask (t : Test) : Option String := t.data.testMask

def Test.testLimit (t : Test) : Option String := t.data.testLimit

def Test.target (t : Test) : String := t.data.target

def Test.targetOper (t : Test) : String := t.data.targetOper

def Test.priority (t : Test) : Nat := t.data.priority

def Test.setMime (t : Test) : Option String := t.data.setMime

def Test.active (t : Test) : Bool := t.data.active

/-- Python truthiness of an optional string: None and the empty string are
falsy. -/
def truthy : Option String → Bool
  | none => false
  | some s => !(s == "")

/-- compile.py Stack.parentFor: pop while the level of the top of stack is
at least the incoming level.  The stack is modelled with its top at the
head.  Python indexes stack[-1] and would raise IndexError on an empty
stack; the model returns the empty stack there, a state the proved
invariant shows is never reached. -/
def parentFor (level : Int) : List Test → List Test
  | [] => []
  | t :: rest => if level ≤ t.level then parentFor level rest else t :: rest

/-- compile.py Stack.newTest: push the new test exactly when its level is
greater than the level of the top of stack.  As for parentFor, the empty
case stands for Python's IndexError and is unreachable. -/
def newTest (t : Test) : List Test → List Test
  | [] => []
  | top :: rest => if top.level < t.level then t :: top :: rest else top :: rest

/-- One parsed rule line in compile.py parseFields: parentFor with the new
test's level, then newTest. -/
def stackStep (stack : List Test) (t : Test) : List Test :=
  newTest t (parentFor t.level stack)

mutual

/-- The strict descendants of a node, in source order. -/
def descendants : Test → List Test
  | .mk _ subs => descendantsL subs

def descendantsL : List Test → List Test
  | [] => []
  | t :: ts => (t :: descendants t) ++ descendantsL ts

end

/-- A node together with its strict descendants. -/
def nodes (t : Test) : List Test :=
  t :: descendants t

/-- The condition of the keep branch of compile.py Test.pruneTree:
t.setMime is truthy and not in the exception set. -/
def allowedB (exc : List String) (t : Test) : Bool :=
  match t.setMime with
  | none => false
  | some m => !(m == "") && !(exc.contains m)

mutual

/-- Every active flag in the tree is clear, the state of a freshly parsed
tree when Main runs pruneTree on it. -/
def noActive : Test → Bool
  | .mk d subs => !d.active && noActiveL subs

def noActiveL : List Test → Bool
  | [] => true
  | t :: ts => noActive t && noActiveL ts

end

mutual

/-- Some strict descendant of the node is an allowed MIME action.  This is
what the upward active propagation of compile.py Test.pruneTree computes:
a node ends active exactly when some strict descendant carries an allowed
MIME. -/
def hasAllowedDesc (exc : List String) : Test → Bool
  | .mk _ subs => hasAllowedDescL exc subs

def hasAllowedDescL (exc : List String) : List Test → Bool
  | [] => false
  | t :: ts => allowedB exc t || hasAllowedDesc exc t || hasAllowedDescL exc ts

end

/-- Set the active flag of a node, as the keep branch of pruneTree does to
an allowed subtest before recursing. -/
def markActive : Test → Test
  | .mk d subs => .mk { d with active := true } subs

mutual

/-- compile.py Test.pruneTree, as a pure function on a tree whose active
flags start false (Main runs the pass once, on the freshly parsed tree).
A node's new active flag is the old flag joined with the upward
propagation: some strict descendant carries an allowed MIME.  pruneSubs is
the loop over self.subtests: an allowed subtest is kept and marked active;
any other subtest is pruned first and kept exactly when it ended active. -/
def pruneTree (exc : List String) : Test → Test
  | .mk d subs =>
    .mk { d with active := d.active || hasAllowedDescL exc subs } (pruneSubs exc subs)

def pruneSubs (exc : List String) : List Test → List Test
  | [] => []
  | t :: ts =>
    if allowedB exc t then
      markActive (pruneTree exc t) :: pruneSubs exc ts
    else
      let pruned := pruneTree exc t
      if pruned.active then pruned :: pruneSubs exc ts else pruneSubs exc ts

end

/-- A node's MIME, when present, avoids the exception set. -/
def mimeOkB (exc : List String) (t : Test) : Bool :=
  match t.setMime with
  | none => true
  | some m => !(exc.contains m)

mutual

/-- Computable size of the nested tree, for the termination measures of
the code generator model (the derived sizeOf of a nested inductive has no
executable code). -/
def testSize : Test → Nat
  | .mk _ subs => 1 + testListSize subs

def testListSize : List Test → Nat
  | [] => 0
  | t :: ts => testSize t + testListSize ts

end

/-- utils.py partitionByKey's dict update: append the item to the entry of
its key, or add a new entry at the end. -/
def addToDict (d : List (Nat × List Test)) (k : Nat) (i : Test) : List (Nat × List Test) :=
  match d with
  | [] => [(k, [i])]
  | (k2, l) :: rest =>
    if k2 == k then (k2, l ++ [i]) :: rest else (k2, l) :: addToDict rest k i

/-- utils.py partitionByKey: map each key to the list of items with that
key, as an insertion-ordered association list. -/
def partitionByKey (items : List Test) (keyFunc : Test → Nat) : List (Nat × List Test) :=
  items.foldl (fun result i => addToDict result (keyFunc i) i) []

/-- Dict lookup on the association list; the empty list for a missing key
(Python's parts[p] is only evaluated for keys of the dict). -/
def lookupList (d : List (Nat × List Test)) (k : Nat) : List Test :=
  match d with
  | [] => []
  | (k2, l) :: rest => if k2 == k then l else lookupList rest k

/-- generate.py selectSimpleBeShortTests' condition: a beshort equality
test, not unsigned, with a truthy MIME at simple offset 0. -/
def isSimpleBeShort (t : Test) : Bool :=
  t.testCode == "beshort" && !t.unsigned && t.targetOper == "=" &&
    truthy t.setMime && t.offset.noOffset

/-- generate.py selectSimpleBeShortTests: split out the be-short fast
shape, keeping source order on both sides (the unconditional debug print of
the source is dropped). -/
def selectSimpleBeShortTests (tests : List Test) : List Test × List Test :=
  (tests.filter isSimpleBeShort, tests.filter (fun t => !isSimpleBeShort t))

/-- generate.py selectSimpleStringTests' base condition: a string test with
no flags at a simple offset. -/
def isSimpleString (t : Test) : Bool :=
  t.testCode == "string" && t.testFlags.isEmpty && t.offset.simple

/-- generate.py selectSimpleStringTests: split the simple string tests into
equality, inequality and other-operator groups, with everything else in the
fourth component; each group keeps source order. -/
def selectSimpleStringTests (tests : List Test) :
    List Test × List Test × List Test × List Test :=
  (tests.filter (fun t => isSimpleString t && t.targetOper == "="),
   tests.filter (fun t => isSimpleString t && t.targetOper == "=!"),
   tests.filter (fun t => isSimpleString t && !(t.targetOper == "=") && !(t.targetOper == "=!")),
   tests.filter (fun t => !isSimpleString t))

/-- generate.py selectSimpleStringMime's condition: a truthy MIME at offset
zero. -/
def isSimpleStringMime (t : Test) : Bool :=
  truthy t.setMime && t.offset.noOffset

/-- generate.py selectSimpleStringMime: split the string-map fast shape
from the remaining equality tests. -/
def selectSimpleStringMime (tests : List Test) : List Test × List Test :=
  (tests.filter isSimpleStringMime, tests.filter (fun t => !isSimpleStringMime t))

/-- The order in which generate.py putTests2 processes the tests of one
priority class, read off the emission sequence of the source: the be-short
group, then the string-MIME map, then the remaining simple-string equality
tests, the simple-string inequality tests, the other-operator simple-string
tests, and finally the general tests. -/
def putTests2Order (tests : List Test) : List Test :=
  let sel1 := selectSimpleBeShortTests tests
  let sel2 := selectSimpleStringTests sel1.2
  let sel3 := selectSimpleStringMime sel2.1
  sel1.1 ++ sel3.1 ++ sel3.2 ++ sel2.2.1 ++ sel2.2.2.1 ++ sel2.2.2.2

/-- The order in which generate.py putTests processes a sibling group: the
priority partition's classes in ascending key order (parts.keys() sorted
numerically), each class in putTests2 order. -/
def putTestsOrder (tests : List Test) : List Test :=
  let parts := partitionByKey tests (fun t => t.priority)
  let prios := List.insertionSort (fun a b => a ≤ b) (parts.map (fun kv => kv.1))
  prios.flatMap (fun p => putTests2Order (lookupList parts p))

/-- The six emission groups of putTests2, named from the order model: the
be-short fast shape, the string-map fast shape, the remaining simple-string
equality tests, the inequality tests, the other-operator tests and the
general remainder. -/
def c3rest1 (l : List Test) : List Test := (selectSimpleBeShortTests l).2

def c3g1 (l : List Test) : List Test := (selectSimpleBeShortTests l).1

def c3g2 (l : List Test) : List Test :=
  (selectSimpleStringMime (selectSimpleStringTests (c3rest1 l)).1).1

def c3g3 (l : List Test) : List Test :=
  (selectSimpleStringMime (selectSimpleStringTests (c3rest1 l)).1).2

def c3g4 (l : List Test) : List Test := (selectSimpleStringTests (c3rest1 l)).2.1

def c3g5 (l : List Test) : List Test := (selectSimpleStringTests (c3rest1 l)).2.2.1

def c3g6 (l : List Test) : List Test := (selectSimpleStringTests (c3rest1 l)).2.2.2


/-- generate.py Generate's mutable state: the code, data and declaration
streams (as lists of emitted lines) and the running table-name counter. -/
structure EmState where
  code : List String
  dataStrm : List String
  decls : List String
  mapCount : Nat
deriving Repr, DecidableEq

/-- generate.py RuntimeDebug, false in the source. -/
def RuntimeDebug : Bool := false

/-- utils.py IndentStep. -/
def IndentStep : String := "    "

/-- utils.py mkIndent. -/
def mkIndent (level : Nat) : String :=
  String.join (List.replicate level IndentStep)

/-- generate.py mkOvar. -/
def mkOvar (level : Int) : String :=
  "off" ++ toString level

/-- generate.py Generate.stringFuncs. -/
def stringFuncs (oper : String) : Option String :=
  if oper == "=" then some "stringEqual"
  else if oper == "=!" then some "!stringEqual"
  else if oper == "<" then some "stringLess"
  else if oper == "<!" then some "!stringLess"
  else if oper == ">" then some "stringGreater"
  else if oper == ">!" then some "!stringGreater"
  else none

/-- generate.py Generate.simpleIntFuncs. -/
def simpleIntFuncs (code : String) : Option String :=
  if code == "byte" then some "byteMatch"
  else if code == "short" then some "shortMatch"
  else if code == "long" then some "longMatch"
  else if code == "quad" then some "quadMatch"
  else if code == "beshort" then some "beShortMatch"
  else if code == "belong" then some "beLongMatch"
  else if code == "bequad" then some "beQuadMatch"
  else if code == "leshort" then some "leShortMatch"
  else if code == "lelong" then some "leLongMatch"
  else if code == "lequad" then some "leQuadMatch"
  else none

/-- generate.py Generate.compareCodes. -/
def compareCodes (c : Char) : Option String :=
  if c == '=' then some "CompareEq"
  else if c == '<' then some "CompareLt"
  else if c == '>' then some "CompareGt"
  else if c == '&' then some "CompareSet"
  else if c == '^' then some "CompareClr"
  else if c == '~' then some "CompareNeg"
  else if c == '!' then some "CompareNot"
  else none

/-- generate.py Generate.genCompareCodes: the compare code of each
character of the target operator, joined with vertical bars (the source
warns on an empty result but still returns the empty join). -/
def genCompareCodes (test : Test) : String :=
  String.intercalate "|" (test.targetOper.toList.filterMap compareCodes)

/-- Python percent-s formatting of an optional string: None prints as the
text None. -/
def optStr : Option String → String
  | none => "None"
  | some s => s

/-- quoteForC applied to an optional string; utils.py quoteForC(None)
raises a TypeError, modelled as none. -/
def quoteForCOpt : Option String → Option String
  | none => none
  | some s => quoteForCStr s

/-- generate.py Generate.genOffset: emit the offset-resolution preamble for
one test, then the supplied inner code, wrapped in an error-checked else
block when the offset is indirect (addIndent of the inner lines by one
step). -/
def genOffset (st : EmState) (test : Test) (innerCode : List String) (level : Nat) : EmState :=
  let indent := mkIndent level
  let off := test.offset
  let ovar := mkOvar test.level
  let c1 := st.code ++ [indent ++ ovar ++ " = " ++ optStr off.offset ++ ";"]
  let c2 :=
    if off.indirect then
      let a :=
        if off.innerRelative then
          c1 ++ [indent ++ ovar ++ " += " ++ mkOvar (test.level - 1) ++ ";"]
        else c1
      let b := a ++ [indent ++ "rslt = getOffset(buf, len, " ++ ovar ++ ", \x27" ++
        optStr off.typeFlag ++ "\x27, &" ++ ovar ++ ");"]
      if truthy off.operand then
        b ++ [indent ++ ovar ++ " " ++ optStr off.operator ++ "= " ++ optStr off.operand ++ ";"]
      else b
    else c1
  let c3 :=
    if off.outerRelative then
      c2 ++ [indent ++ ovar ++ " += " ++ mkOvar (test.level - 1) ++ ";"]
    else c2
  let c4 :=
    if off.indirect then
      c3 ++ [indent ++ "if (rslt < 0) haveError = True;", indent ++ "else", indent ++ "\x7b"] ++
        innerCode.map (fun l => IndentStep ++ l) ++ [indent ++ "\x7d"]
    else c3 ++ innerCode
  { st with code := c4 }

/-- Lexicographic Python comparison of two lists of integers, as the
key-based sort of putStringMap uses. -/
def listNatLe : List Nat → List Nat → Bool
  | [], _ => true
  | _ :: _, [] => false
  | a :: as, b :: bs => if a < b then true else if b < a then false else listNatLe as bs

/-- generate.py Generate.putStringMap: build the sorted (bytes, literal,
mime) table for the string-equals fast shape, emit the static StringMap
data and the single stringEqualMap call.  Exceptions inside
splitStringBytes, bytesToC or quoteForC abort the run (none); the source
indexes tests[0], so the model rejects an empty list, unreachable behind
putTests2's guard. -/
def putStringMap (st : EmState) (tests : List Test) (level : Nat) : Option EmState :=
  let indent := mkIndent level
  let ind1 := mkIndent 1
  let mapName := "stringMap" ++ toString st.mapCount
  let st0 := { st with mapCount := st.mapCount + 1 }
  match tests.mapM (fun t =>
      match splitStringBytes t.target.toList with
      | .ok bs =>
        match bytesToC bs with
        | some targ =>
          match quoteForCOpt t.setMime with
          | some mime => some (bs, String.mk targ, mime)
          | none => none
        | none => none
      | .valueError => none
      | .diverge => none) with
  | none => none
  | some targets =>
    let sorted := List.insertionSort (fun a b => listNatLe a.1 b.1 = true) targets
    match tests with
    | [] => none
    | t0 :: _ =>
      let dataLines := ["\nstatic StringMap " ++ mapName ++ "[] = \x7b"] ++
        sorted.map (fun tr =>
          ind1 ++ "\x7b" ++ tr.2.1 ++ ",    sizeof(" ++ tr.2.1 ++ ") - 1,    " ++
            tr.2.2 ++ "\x7d,") ++
        ["\x7d;", "static const size_t " ++ mapName ++ "Count = " ++
          toString sorted.length ++ ";"]
      let st1 := { st0 with dataStrm := st0.dataStrm ++ dataLines }
      let st2 := if t0.level == 0 then { st1 with code := st1.code ++ [""] } else st1
      let st3 := { st2 with code := st2.code ++ [indent ++ "// line " ++ toString t0.lnum] }
      let st4 :=
        if RuntimeDebug then { st3 with code := st3.code ++ [indent ++ "++testCount;"] }
        else st3
      some { st4 with code := st4.code ++
        [indent ++ "rslt = stringEqualMap(buf, len, " ++ mapName ++ ", " ++ mapName ++
          "Count, mime);",
         indent ++ "if (rslt < 0) haveError = True;",
         indent ++ "if (rslt > 0)",
         indent ++ "\x7b",
         mkIndent (level + 1) ++ "return Match;",
         indent ++ "\x7d"] }

/-- generate.py Generate.putBeShortGroup: build the (target, mask, mime)
table for the be-short fast shape, emit the static ShortMap data and the
single beShortGroup call.  A missing mask becomes 0xffff. -/
def putBeShortGroup (st : EmState) (tests : List Test) (level : Nat) : Option EmState :=
  let indent := mkIndent level
  let ind1 := mkIndent 1
  let mapName := "beshortMap" ++ toString st.mapCount
  let st0 := { st with mapCount := st.mapCount + 1 }
  match tests.mapM (fun t =>
      match quoteForCOpt t.setMime with
      | some mime => some (t.target, t.testMask.getD "0xffff", mime)
      | none => none) with
  | none => none
  | some targets =>
    match tests with
    | [] => none
    | t0 :: _ =>
      let dataLines := ["\nstatic ShortMap " ++ mapName ++ "[] = \x7b"] ++
        targets.map (fun tr =>
          ind1 ++ "\x7b" ++ tr.1 ++ ",    " ++ tr.2.1 ++ ",    " ++ tr.2.2 ++ "\x7d,") ++
        ["\x7d;", "static const size_t " ++ mapName ++ "Count = " ++
          toString targets.length ++ ";"]
      let st1 := { st0 with dataStrm := st0.dataStrm ++ dataLines }
      let st2 := if t0.level == 0 then { st1 with code := st1.code ++ [""] } else st1
      let st3 := { st2 with code := st2.code ++ [indent ++ "// line " ++ toString t0.lnum] }
      let st4 :=
        if RuntimeDebug then { st3 with code := st3.code ++ [indent ++ "++testCount;"] }
        else st3
      some { st4 with code := st4.code ++
        [indent ++ "rslt = beShortGroup(buf, len, " ++ mapName ++ ", " ++ mapName ++
          "Count, mime);",
         indent ++ "if (rslt < 0) haveError = True;",
         indent ++ "if (rslt > 0)",
         indent ++ "\x7b",
         mkIndent (level + 1) ++ "return Match;",
         indent ++ "\x7d"] }

/-- Size facts used by the termination measure of the code generator
model. -/
theorem testSize_pos (t : Test) : 0 < testSize t := by
  cases t with
  | mk d subs => simp [testSize]

theorem testListSize_subtests_lt (t : Test) : testListSize t.subtests < testSize t := by
  cases t with
  | mk d subs => simp [testSize, Test.subtests]

theorem testListSize_filter_le (p : Test → Bool) (l : List Test) :
    testListSize (l.filter p) ≤ testListSize l := by
  induction l with
  | nil => simp
  | cons a as ih =>
    by_cases h : p a
    · rw [List.filter_cons_of_pos h, testListSize, testListSize]
      omega
    · rw [List.filter_cons_of_neg (by simpa using h), testListSize]
      omega

/-- Total size of the partition's value lists. -/
def partsWeight (d : List (Nat × List Test)) : Nat :=
  (d.map (fun kv => testListSize kv.2)).sum

theorem testListSize_append (l1 l2 : List Test) :
    testListSize (l1 ++ l2) = testListSize l1 + testListSize l2 := by
  induction l1 with
  | nil => simp [testListSize]
  | cons a as ih =>
    rw [List.cons_append, testListSize, testListSize, ih]
    omega

theorem partsWeight_addToDict (d : List (Nat × List Test)) (k : Nat) (i : Test) :
    partsWeight (addToDict d k i) = partsWeight d + testSize i := by
  induction d with
  | nil => simp [addToDict, partsWeight, testListSize]
  | cons kv rest ih =>
    obtain ⟨k2, l⟩ := kv
    by_cases h : (k2 == k)
    · simp only [addToDict, h, if_pos, partsWeight, List.map_cons, List.sum_cons]
      rw [testListSize_append]
      simp [testListSize]
      omega
    · simp only [addToDict, h, if_neg, not_false_iff, partsWeight, List.map_cons,
        List.sum_cons, Bool.false_eq_true] at *
      omega

theorem partsWeight_partitionByKey (items : List Test) (f : Test → Nat) :
    partsWeight (partitionByKey items f) = testListSize items := by
  suffices h : ∀ d, partsWeight (items.foldl (fun result i => addToDict result (f i) i) d) =
      partsWeight d + testListSize items by
    have := h []
    simpa [partitionByKey, partsWeight] using this
  induction items with
  | nil => intro d; simp [testListSize]
  | cons a as ih =>
    intro d
    simp only [List.foldl_cons]
    rw [ih, partsWeight_addToDict, testListSize]
    omega

theorem testListSize_lookupList_le (d : List (Nat × List Test)) (k : Nat) :
    testListSize (lookupList d k) ≤ partsWeight d := by
  induction d with
  | nil => simp [lookupList, testListSize]
  | cons kv rest ih =>
    obtain ⟨k2, l⟩ := kv
    simp only [lookupList, partsWeight, List.map_cons, List.sum_cons]
    by_cases h : (k2 == k)
    · simp only [h, if_pos]
      omega
    · simp only [h, if_neg, not_false_iff, Bool.false_eq_true]
      have := ih
      simp only [partsWeight] at this
      omega

/-- Helpers for the three-component lexicographic termination measure. -/
theorem lex3_of_le_le_lt {a a2 b b2 c c2 : Nat} (h1 : a2 ≤ a) (h2 : b2 ≤ b) (h3 : c2 < c) :
    Prod.Lex (· < ·) (Prod.Lex (· < ·) (· < ·)) (a2, b2, c2) (a, b, c) := by
  rcases Nat.lt_or_ge a2 a with h | h
  · exact Prod.Lex.left _ _ h
  · have ha : a2 = a := le_antisymm h1 h
    subst ha
    rcases Nat.lt_or_ge b2 b with hb | hb
    · exact Prod.Lex.right _ (Prod.Lex.left _ _ hb)
    · have hbe : b2 = b := le_antisymm h2 hb
      subst hbe
      exact Prod.Lex.right _ (Prod.Lex.right _ h3)

theorem lex3_of_le_lt {a a2 b b2 c c2 : Nat} (h1 : a2 ≤ a) (h2 : b2 < b) :
    Prod.Lex (· < ·) (Prod.Lex (· < ·) (· < ·)) (a2, b2, c2) (a, b, c) := by
  rcases Nat.lt_or_ge a2 a with h | h
  · exact Prod.Lex.left _ _ h
  · have ha : a2 = a := le_antisymm h1 h
    subst ha
    exact Prod.Lex.right _ (Prod.Lex.left _ _ h2)

theorem lex3_of_lt {a a2 b b2 c c2 : Nat} (h1 : a2 < a) :
    Prod.Lex (· < ·) (Prod.Lex (· < ·) (· < ·)) (a2, b2, c2) (a, b, c) :=
  Prod.Lex.left _ _ h1

mutual

/-- generate.py Generate.putTests: partition the sibling tests by priority,
sort the keys, and emit each priority class in ascending key order. -/
def putTests (st : EmState) (tests : List Test) (level : Nat) : Option EmState :=
  let parts := partitionByKey tests (fun t => t.priority)
  let prios := List.insertionSort (fun a b => a ≤ b) (parts.map (fun kv => kv.1))
  putTestsByPrios st parts prios level
termination_by (testListSize tests, 9, 0)
decreasing_by
  apply lex3_of_le_lt
  · rw [partsWeight_partitionByKey]
  · omega

/-- The loop over sorted priorities inside generate.py Generate.putTests. -/
def putTestsByPrios (st : EmState) (parts : List (Nat × List Test)) (prios : List Nat)
    (level : Nat) : Option EmState :=
  match prios with
  | [] => some st
  | p :: ps =>
    match putTests2 st (lookupList parts p) level with
    | none => none
    | some st2 => putTestsByPrios st2 parts ps level
termination_by (partsWeight parts, 8, prios.length)
decreasing_by
  · apply lex3_of_le_lt
    · exact testListSize_lookupList_le _ _
    · omega
  · apply lex3_of_le_le_lt
    · exact le_refl _
    · exact le_refl _
    · simp

/-- generate.py Generate.putTests2: emit one priority class; the be-short
group, the string map, the three simple-string groups one test at a time,
then the general tests one at a time. -/
def putTests2 (st : EmState) (tests : List Test) (level : Nat) : Option EmState :=
  let sel1 := selectSimpleBeShortTests tests
  let stA := if sel1.1.isEmpty then some st else putBeShortGroup st sel1.1 level
  match stA with
  | none => none
  | some st1 =>
    let sel2 := selectSimpleStringTests sel1.2
    let sel3 := selectSimpleStringMime sel2.1
    let stB := if sel3.1.isEmpty then some st1 else putStringMap st1 sel3.1 level
    match stB with
    | none => none
    | some st2 =>
      match putSimpleStringL st2 sel3.2 level with
      | none => none
      | some st3 =>
        match putSimpleStringL st3 sel2.2.1 level with
        | none => none
        | some st4 =>
          match putSimpleStringL st4 sel2.2.2.1 level with
          | none => none
          | some st5 => putGeneralTestL st5 sel2.2.2.2 level
termination_by (testListSize tests, 7, 0)
decreasing_by
  all_goals apply lex3_of_le_lt
  all_goals try omega
  all_goals simp only [selectSimpleBeShortTests, selectSimpleStringTests, selectSimpleStringMime]
  all_goals
    first
    | exact le_trans (testListSize_filter_le _ _)
        (le_trans (testListSize_filter_le _ _) (testListSize_filter_le _ _))
    | exact le_trans (testListSize_filter_le _ _) (testListSize_filter_le _ _)
    | exact testListSize_filter_le _ _

/-- The loop emitting a list of simple-string tests one at a time. -/
def putSimpleStringL (st : EmState) (tests : List Test) (level : Nat) : Option EmState :=
  match tests with
  | [] => some st
  | t :: ts =>
    match putSimpleString st t level with
    | none => none
    | some st2 => putSimpleStringL st2 ts level
termination_by (testListSize tests, 6, 0)
decreasing_by
  · apply lex3_of_le_lt
    · rw [testListSize]; omega
    · omega
  · apply lex3_of_lt
    rw [testListSize]
    have := testSize_pos t
    omega

/-- The loop emitting a list of general tests one at a time. -/
def putGeneralTestL (st : EmState) (tests : List Test) (level : Nat) : Option EmState :=
  match tests with
  | [] => some st
  | t :: ts =>
    match putGeneralTest st t level with
    | none => none
    | some st2 => putGeneralTestL st2 ts level
termination_by (testListSize tests, 6, 0)
decreasing_by
  · apply lex3_of_le_lt
    · rw [testListSize]; omega
    · omega
  · apply lex3_of_lt
    rw [testListSize]
    have := testSize_pos t
    omega

/-- generate.py Generate.putSimpleString: a recognised string operator
emits the comment line, the guarded runtime call through genOffset and the
test body; the always-match operator goes straight to the content; an
unrecognised operator only warns and emits nothing. -/
def putSimpleString (st : EmState) (test : Test) (level : Nat) : Option EmState :=
  let indent := mkIndent level
  match stringFuncs test.targetOper with
  | some func =>
    match quoteForCStr test.target with
    | none => none
    | some targ =>
      let ovar := mkOvar test.level
      let inner :=
        [indent ++ "rslt = " ++ func ++ "(buf, len, " ++ targ ++ ", sizeof(" ++ targ ++
          ") - 1, &" ++ ovar ++ ");",
         indent ++ "if (rslt < 0) haveError = True;"]
      let st1 := if test.level == 0 then { st with code := st.code ++ [""] } else st
      let st2 := { st1 with code := st1.code ++ [indent ++ "// line " ++ toString test.lnum] }
      let st3 :=
        if RuntimeDebug then { st2 with code := st2.code ++ [indent ++ "++testCount;"] }
        else st2
      putTestBody (genOffset st3 test inner level) test level
  | none =>
    if test.targetOper == "x" then putTestContent st test level
    else some st
termination_by (testSize test, 5, 0)
decreasing_by
  · apply lex3_of_le_lt
    · exact le_refl _
    · omega
  · apply lex3_of_le_lt
    · exact le_refl _
    · omega

/-- generate.py Generate.putGeneralTest: dispatch on the test code.  A
default test or an always-match operator emits the content directly; string,
search and regex tests emit their runtime calls through genOffset; integer
tests call their match function with compare codes and mask; a search test
without a limit and an unimplemented test code only warn. -/
def putGeneralTest (st : EmState) (test : Test) (level : Nat) : Option EmState :=
  let indent := mkIndent level
  let ovar := mkOvar test.level
  if test.testCode == "default" || test.targetOper == "x" then
    putTestContent st test level
  else if test.testCode == "string" then
    let flags := String.intercalate "|" (["0"] ++
      (if test.testFlags.contains "w" then ["IgnoreWS"] else []) ++
      (if test.testFlags.contains "W" then ["CompactWS"] else []) ++
      (if test.testFlags.contains "c" then ["MatchLower"] else []) ++
      (if test.testFlags.contains "C" then ["MatchUpper"] else []))
    let oper := String.intercalate "|" (
      (if test.targetOper.toList.contains '=' then ["CompareEq"] else []) ++
      (if test.targetOper.toList.contains '<' then ["CompareLt"] else []) ++
      (if test.targetOper.toList.contains '>' then ["CompareGt"] else []) ++
      (if test.targetOper.toList.contains '!' then ["CompareNot"] else []))
    match quoteForCStr test.target with
    | none => none
    | some targ =>
      let st1 := if test.level == 0 then { st with code := st.code ++ [""] } else st
      let st2 := { st1 with code := st1.code ++ [indent ++ "// line " ++ toString test.lnum] }
      let st3 :=
        if RuntimeDebug then { st2 with code := st2.code ++ [indent ++ "++testCount;"] }
        else st2
      let inner :=
        [indent ++ "rslt = stringMatch(buf, len, " ++ targ ++ ", sizeof(" ++ targ ++
          ") - 1, &" ++ ovar ++ ", " ++ oper ++ ", " ++ flags ++ ");",
         indent ++ "if (rslt < 0) haveError = True;"]
      putTestBody (genOffset st3 test inner level) test level
  else if test.testCode == "search" then
    let flags := String.intercalate "|" (["0"] ++
      (if test.testFlags.contains "w" then ["IgnoreWS"] else []) ++
      (if test.testFlags.contains "W" then ["CompactWS"] else []) ++
      (if test.testFlags.contains "c" then ["MatchLower"] else []) ++
      (if test.testFlags.contains "C" then ["MatchUpper"] else []))
    match test.testLimit with
    | none => some st
    | some limit =>
      match quoteForCStr test.target with
      | none => none
      | some targ =>
        let st1 := if test.level == 0 then { st with code := st.code ++ [""] } else st
        let st2 := { st1 with code := st1.code ++ [indent ++ "// line " ++ toString test.lnum] }
        let st3 :=
          if RuntimeDebug then { st2 with code := st2.code ++ [indent ++ "++testCount;"] }
          else st2
        let inner :=
          [indent ++ "rslt = stringSearch(buf, len, " ++ targ ++ ", sizeof(" ++ targ ++
            ") - 1, &" ++ ovar ++ ", " ++ limit ++ ", " ++ flags ++ ");",
           indent ++ "if (rslt < 0) haveError = True;"]
        putTestBody (genOffset st3 test inner level) test level
  else if test.testCode == "regex" then
    let limit0 := test.testLimit.getD "0"
    let flags := String.intercalate "|" (["0"] ++
      (if test.testFlags.contains "c" then ["RegexNoCase"] else []) ++
      (if test.testFlags.contains "s" then ["RegexBegin"] else []))
    let limit := if test.testFlags.contains "l" then limit0 ++ " * 80" else limit0
    match quoteForCStr test.target with
    | none => none
    | some targ =>
      let st1 := if test.level == 0 then { st with code := st.code ++ [""] } else st
      let st2 := { st1 with code := st1.code ++ [indent ++ "// line " ++ toString test.lnum] }
      let st3 :=
        if RuntimeDebug then { st2 with code := st2.code ++ [indent ++ "++testCount;"] }
        else st2
      let inner :=
        [indent ++ "rslt = regexMatch(buf, len, " ++ targ ++ ", &" ++ ovar ++ ", " ++
          limit ++ ", " ++ flags ++ ");",
         indent ++ "if (rslt < 0) haveError = True;"]
      putTestBody (genOffset st3 test inner level) test level
  else
    match simpleIntFuncs test.testCode with
    | some func =>
      let value := test.target
      let compare := genCompareCodes test
      let mask := test.testMask.getD "0xffffffff"
      let st1 := if test.level == 0 then { st with code := st.code ++ [""] } else st
      let st2 := { st1 with code := st1.code ++ [indent ++ "// line " ++ toString test.lnum] }
      let st3 :=
        if RuntimeDebug then { st2 with code := st2.code ++ [indent ++ "++testCount;"] }
        else st2
      let inner :=
        [indent ++ "rslt = " ++ func ++ "(buf, len, " ++ value ++ ", " ++ compare ++ ", " ++
          mask ++ ", &" ++ ovar ++ ");",
         indent ++ "if (rslt < 0) haveError = True;"]
      putTestBody (genOffset st3 test inner level) test level
    | none => some st
termination_by (testSize test, 5, 0)
decreasing_by
  all_goals
    apply lex3_of_le_lt
    · exact le_refl _
    · omega

/-- generate.py Generate.putTestBody: the common success block after a
test: the rslt check, an opening brace, the content one level deeper, a
closing brace. -/
def putTestBody (st : EmState) (test : Test) (level : Nat) : Option EmState :=
  let indent := mkIndent level
  let st1 := { st with code := st.code ++ [indent ++ "if (rslt > 0)", indent ++ "\x7b"] }
  match putTestContent st1 test (level + 1) with
  | none => none
  | some st2 => some { st2 with code := st2.code ++ [indent ++ "\x7d"] }
termination_by (testSize test, 4, 0)
decreasing_by
  apply lex3_of_le_lt
  · exact le_refl _
  · omega

/-- generate.py Generate.putTestContent: with a truthy MIME, assign the
quoted MIME literal to the mime out-parameter and return Match, emitting
nothing for any subtests; otherwise recursively emit the subtests at the
same level. -/
def putTestContent (st : EmState) (test : Test) (level : Nat) : Option EmState :=
  let indent := mkIndent level
  if truthy test.setMime then
    match quoteForCOpt test.setMime with
    | none => none
    | some m =>
      some { st with code := st.code ++
        [indent ++ "*mime = " ++ m ++ ";", indent ++ "return Match;"] }
  else
    putTests st test.subtests level
termination_by (testSize test, 3, 0)
decreasing_by
  apply lex3_of_lt
  exact testListSize_subtests_lt test

end


/-- A simple direct offset 0, used by the concrete witness trees. -/
def fixOffset : Offset :=
  { offset := some "0", simple := true, noOffset := true, indirect := false,
    typeFlag := none, operator := none, operand := none,
    innerRelative := false, outerRelative := false }

/-- Baseline node fields for the concrete witness trees. -/
def fixData : TestData :=
  { lnum := 1, level := 0, offset := fixOffset, unsigned := false,
    testCode := "string", testFlags := [], testMask := none, testLimit := none,
    target := "A", targetOper := "=", priority := 5, setMime := none,
    active := false }


/-- Concrete tree for the excepted-MIME scenario: a child whose MIME is in
the exception set, with a grandchild whose MIME is allowed. -/
def c10exc : List String := ["application/pdf"]

def c10grand : Test :=
  Test.mk { fixData with level := 2, setMime := some "text/plain" } []

def c10child : Test :=
  Test.mk { fixData with level := 1, setMime := some "application/pdf" } [c10grand]

def c10root : Test :=
  Test.mk { fixData with level := -1 } [c10child]

/-- The child as pruneTree keeps it: active, with its pruned subtree. -/
def c10kept : Test :=
  Test.mk { fixData with level := 1, setMime := some "application/pdf", active := true }
    [Test.mk { fixData with level := 2, setMime := some "text/plain", active := true } []]

/-- Two same-priority simple-string siblings for the emission-order
scenario: an inequality test followed by an equality test. -/
def c3neq : Test := Test.mk { fixData with targetOper := "=!" } []

def c3eq : Test := Test.mk fixData []


/-! ## Theorems -/

/-- The first element a dropWhile keeps fails the predicate. -/
theorem dropWhile_head_not (p : α → Bool) (l : List α) (c : α) (t : List α)
    (h : l.dropWhile p = c :: t) : p c = false := by
  induction l with
  | nil => simp [List.dropWhile] at h
  | cons a as ih =>
    by_cases ha : p a
    · rw [List.dropWhile_cons_of_pos ha] at h
      exact ih h
    · rw [List.dropWhile_cons_of_neg (by simpa using ha)] at h
      cases h
      simpa using ha

/-- claim C8 counterexample: stripAllCmnt is not idempotent on every
string.  On the two-line string hash-a-newline-hash-b one application
leaves newline-hash-b, and a second application strips that comment too. -/
theorem claim_c8_counterexample :
    stripAllCmnt (stripAllCmnt ['#', 'a', '\n', '#', 'b']) ≠
      stripAllCmnt ['#', 'a', '\n', '#', 'b'] := by
  decide

/-- claim C8 (amended): stripAllCmnt is idempotent on every string whose
newlines, if any, occur only as the final character -- in particular on
every physical line the compiler reads. -/
theorem claim_c8 (x : List Char) (h : '\n' ∉ x.dropLast) :
    stripAllCmnt (stripAllCmnt x) = stripAllCmnt x := by
  rcases hr : x.dropWhile isPySpace with _ | ⟨c, t⟩
  · have hfx : stripAllCmnt x = x := by
      simp [stripAllCmnt, hr]
    rw [hfx]
    exact hfx
  · by_cases hc : c = '#'
    · subst hc
      have hfx : stripAllCmnt x = ('#' :: t).dropWhile (fun ch => !(ch == '\n')) := by
        simp [stripAllCmnt, hr]
      rcases hdrop : ('#' :: t).dropWhile (fun ch => !(ch == '\n')) with _ | ⟨c2, t2⟩
      · rw [hfx, hdrop]
        decide
      · have hc2 : c2 = '\n' := by
          have := dropWhile_head_not _ _ _ _ hdrop
          simpa using this
        subst hc2
        have hsuf : ('\n' :: t2) <:+ x := by
          rw [← hdrop]
          exact (List.dropWhile_suffix _).trans (hr ▸ List.dropWhile_suffix _)
        have ht2 : t2 = [] := by
          rcases ht2 : t2 with _ | ⟨c3, t3⟩
          · rfl
          · exfalso
            obtain ⟨pre, hpre⟩ := hsuf
            rw [ht2] at hpre
            apply h
            rw [← hpre, List.dropLast_append_of_ne_nil pre (by simp)]
            simp
        rw [hfx, hdrop, ht2]
        decide
    · have hfx : stripAllCmnt x = x := by
        simp [stripAllCmnt, hr, hc]
      rw [hfx]
      exact hfx

/-- claim C8 witness: idempotence at the concrete comment line
space-space-hash-space-h-i-newline. -/
theorem claim_c8_witness :
    stripAllCmnt (stripAllCmnt [' ', ' ', '#', ' ', 'h', 'i', '\n']) =
      stripAllCmnt [' ', ' ', '#', ' ', 'h', 'i', '\n'] :=
  claim_c8 [' ', ' ', '#', ' ', 'h', 'i', '\n'] (by decide)


/-- parentFor pops exactly the longest run of stack tops whose level is at
least the incoming level: it is dropWhile on the level test. -/
theorem parentFor_eq_dropWhile (L : Int) (st : List Test) :
    parentFor L st = st.dropWhile (fun u => decide (L ≤ u.level)) := by
  induction st with
  | nil => rfl
  | cons t rest ih =>
    by_cases h : L ≤ t.level
    · rw [parentFor, if_pos h, ih, List.dropWhile_cons_of_pos (by simpa using h)]
    · rw [parentFor, if_neg h, List.dropWhile_cons_of_neg (by simpa using h)]

/-- The result of parentFor is a suffix of the stack. -/
theorem parentFor_suffix (L : Int) (st : List Test) : parentFor L st <:+ st := by
  rw [parentFor_eq_dropWhile]
  exact List.dropWhile_suffix _

/-- The top of the stack after parentFor has level below the incoming
level. -/
theorem parentFor_head_lt (L : Int) (st : List Test) (u : Test) (r : List Test)
    (h : parentFor L st = u :: r) : u.level < L := by
  rw [parentFor_eq_dropWhile] at h
  have := dropWhile_head_not _ _ _ _ h
  simp at this
  omega

/-- When the bottom of the stack is the root with level below the incoming
level, parentFor keeps it: the result is nonempty and still ends at the
root. -/
theorem parentFor_getLast (L : Int) (root : Test) (hroot : root.level < L) :
    ∀ st : List Test, st.getLast? = some root →
      parentFor L st ≠ [] ∧ (parentFor L st).getLast? = some root := by
  intro st
  induction st with
  | nil => intro h; simp at h
  | cons t rest ih =>
    intro h
    rcases rest with _ | ⟨t2, r2⟩
    · simp at h
      subst h
      rw [parentFor, if_neg (by omega)]
      simp
    · rw [List.getLast?_cons_cons] at h
      by_cases hl : L ≤ t.level
      · rw [parentFor, if_pos hl]
        exact ih h
      · rw [parentFor, if_neg hl]
        constructor
        · simp
        · rw [List.getLast?_cons_cons]
          exact h

/-- The stack invariant of compile.py Stack: nonempty, levels strictly
increasing from bottom to top (the model keeps the top at the head), and
the parser root at the bottom. -/
def stackInv (root : Test) (st : List Test) : Prop :=
  st ≠ [] ∧ List.Pairwise (fun a b => b.level < a.level) st ∧ st.getLast? = some root

/-- One parsed line preserves the stack invariant. -/
theorem stackStep_inv (root : Test) (hr : root.level = -1) (t : Test)
    (ht : 0 ≤ t.level) (st : List Test) (h : stackInv root st) :
    stackInv root (stackStep st t) := by
  obtain ⟨hne, hpw, hlast⟩ := h
  have hpop := parentFor_getLast t.level root (by omega) st hlast
  rcases hst2 : parentFor t.level st with _ | ⟨top, r⟩
  · exact absurd hst2 hpop.1
  · have htop : top.level < t.level := parentFor_head_lt _ _ _ _ hst2
    have hpw2 : List.Pairwise (fun a b => b.level < a.level) (top :: r) := by
      rw [← hst2]
      exact hpw.sublist (parentFor_suffix t.level st).sublist
    have hlast2 : (top :: r).getLast? = some root := by
      rw [← hst2]
      exact hpop.2
    unfold stackStep
    rw [hst2, newTest, if_pos htop]
    refine ⟨by simp, ?_, ?_⟩
    · refine List.Pairwise.cons ?_ hpw2
      intro u hu
      rcases List.mem_cons.mp hu with h1 | h2
      · subst h1; exact htop
      · have := (List.pairwise_cons.mp hpw2).1 u h2
        omega
    · rw [List.getLast?_cons_cons]
      exact hlast2

/-- Folding the per-line step over any rule sequence preserves the stack
invariant. -/
theorem foldl_stackStep_inv (root : Test) (hr : root.level = -1) :
    ∀ (l : List Test), (∀ t ∈ l, 0 ≤ t.level) → ∀ st, stackInv root st →
      stackInv root (l.foldl stackStep st) := by
  intro l
  induction l with
  | nil => intro _ st h; exact h
  | cons t rest ih =>
    intro hl st h
    rw [List.foldl_cons]
    exact ih (fun u hu => hl u (List.mem_cons_of_mem t hu))
      (stackStep st t) (stackStep_inv root hr t (hl t (List.mem_cons_self t rest)) st h)

/-- claim C5: starting from the stack holding only the root (level -1),
after any number of parsed rule lines (each a parentFor with the new test's
level followed by newTest, all levels nonnegative) the stack is nonempty,
its levels are strictly increasing from bottom to top, and the root stays
at the bottom; moreover parentFor pops exactly while the top's level is at
least the incoming level (it equals dropWhile on that test), and newTest
pushes exactly when the new test's level exceeds the top's level. -/
theorem claim_c5 (root : Test) (hr : root.level = -1) (ts : List Test)
    (h : ∀ t ∈ ts, 0 ≤ t.level) :
    (∀ n : Nat,
       ((ts.take n).foldl stackStep [root]) ≠ [] ∧
       List.Pairwise (fun a b => b.level < a.level) ((ts.take n).foldl stackStep [root]) ∧
       ((ts.take n).foldl stackStep [root]).getLast? = some root) ∧
    (∀ (st : List Test) (L : Int),
       parentFor L st = st.dropWhile (fun u => decide (L ≤ u.level))) ∧
    (∀ (T top : Test) (rest : List Test),
       newTest T (top :: rest) =
         if top.level < T.level then T :: top :: rest else top :: rest) := by
  refine ⟨?_, ?_, ?_⟩
  · intro n
    have hmem : ∀ t ∈ ts.take n, 0 ≤ t.level := by
      intro t htm
      exact h t ((ts.take_sublist n).subset htm)
    have hbase : stackInv root [root] := by
      refine ⟨by simp, by simp, by simp⟩
    exact foldl_stackStep_inv root hr (ts.take n) hmem [root] hbase
  · intro st L
    exact parentFor_eq_dropWhile L st
  · intro T top rest
    rfl


/-- claim C9: splitStringBytes is not total.  A backslash-x escape followed
by zero hexadecimal digits (end of string, or a non-hex character) reaches
int with an empty digit string and raises an uncaught ValueError; the error
propagates from any position reached by the scan, and quoteForC fails on
such targets. -/
theorem claim_c9 :
    (∀ rest : List Char, (∀ c, rest.head? = some c → isHexDig c = false) →
       splitStringBytes ('\\' :: 'x' :: rest) = .valueError) ∧
    (∀ (c : Char) (s : List Char), ¬c = '\\' →
       splitStringBytes s = .valueError → splitStringBytes (c :: s) = .valueError) ∧
    (∀ s : List Char, splitStringBytes s = .valueError → quoteForC s = none) := by
  refine ⟨?_, ?_, ?_⟩
  · intro rest hrest
    have h1 : splitStringBytes ('\\' :: 'x' :: rest) = ssbHex rest := by
      simp [splitStringBytes, ssbEscape, cEscapes]
    rw [h1]
    rcases rest with _ | ⟨d1, r1⟩
    · simp [ssbHex]
    · have hd1 : isHexDig d1 = false := hrest d1 rfl
      simp [ssbHex, hd1]
  · intro c s hc hs
    have hcne : (c == '\\') = false := by simpa using hc
    simp only [splitStringBytes, hcne, Bool.false_eq_true, if_false, hs]
    rfl
  · intro s hs
    simp [quoteForC, hs]

/-- claim C9 witness: the concrete target a-b-backslash-x raises, and
quoteForC fails on it. -/
theorem claim_c9_witness :
    splitStringBytes ['a', 'b', '\\', 'x'] = .valueError ∧
      quoteForC ['a', 'b', '\\', 'x'] = none := by
  have h1 : splitStringBytes ['\\', 'x'] = .valueError :=
    claim_c9.1 [] (by intro c hc; simp at hc)
  have h2 : splitStringBytes ['b', '\\', 'x'] = .valueError :=
    claim_c9.2.1 'b' ['\\', 'x'] (by decide) h1
  have h3 : splitStringBytes ['a', 'b', '\\', 'x'] = .valueError :=
    claim_c9.2.1 'a' ['b', '\\', 'x'] (by decide) h2
  exact ⟨h3, claim_c9.2.2 _ h3⟩


/-- claim C5 witness: the invariant applied to a concrete root and two
nested rule lines. -/
theorem claim_c5_witness :
    (∀ n : Nat,
       (([Test.mk { fixData with level := 0 } [],
          Test.mk { fixData with level := 1 } []].take n).foldl stackStep
         [Test.mk { fixData with level := -1 } []]) ≠ [] ∧
       List.Pairwise (fun a b => b.level < a.level)
         (([Test.mk { fixData with level := 0 } [],
            Test.mk { fixData with level := 1 } []].take n).foldl stackStep
           [Test.mk { fixData with level := -1 } []]) ∧
       (([Test.mk { fixData with level := 0 } [],
          Test.mk { fixData with level := 1 } []].take n).foldl stackStep
         [Test.mk { fixData with level := -1 } []]).getLast? =
         some (Test.mk { fixData with level := -1 } [])) ∧
    (∀ (st : List Test) (L : Int),
       parentFor L st = st.dropWhile (fun u => decide (L ≤ u.level))) ∧
    (∀ (T top : Test) (rest : List Test),
       newTest T (top :: rest) =
         if top.level < T.level then T :: top :: rest else top :: rest) :=
  claim_c5 (Test.mk { fixData with level := -1 } []) rfl
    [Test.mk { fixData with level := 0 } [], Test.mk { fixData with level := 1 } []]
    (by decide)

/-- Basic shape facts about markActive, pruneTree and descendants. -/
theorem markActive_active (t : Test) : (markActive t).active = true := by
  cases t with
  | mk d subs => rfl

theorem markActive_descendants (t : Test) : descendants (markActive t) = descendants t := by
  cases t with
  | mk d subs => rfl

theorem markActive_subtests (t : Test) : (markActive t).subtests = t.subtests := by
  cases t with
  | mk d subs => rfl

theorem markActive_setMime (t : Test) : (markActive t).setMime = t.setMime := by
  cases t with
  | mk d subs => rfl

theorem pruneTree_subtests (exc : List String) (t : Test) :
    (pruneTree exc t).subtests = pruneSubs exc t.subtests := by
  cases t with
  | mk d subs => rfl

theorem pruneTree_setMime (exc : List String) (t : Test) :
    (pruneTree exc t).setMime = t.setMime := by
  cases t with
  | mk d subs => rfl

theorem pruneTree_active (exc : List String) (t : Test) :
    (pruneTree exc t).active = (t.active || hasAllowedDescL exc t.subtests) := by
  cases t with
  | mk d subs => rfl

theorem descendants_eq_subtests (t : Test) :
    descendants t = descendantsL t.subtests := by
  cases t with
  | mk d subs => rfl

theorem descendants_pruneTree (exc : List String) (t : Test) :
    descendants (pruneTree exc t) = descendantsL (pruneSubs exc t.subtests) := by
  cases t with
  | mk d subs => rfl

theorem noActive_parts (t : Test) (h : noActive t = true) :
    t.active = false ∧ noActiveL t.subtests = true := by
  cases t with
  | mk d subs =>
    simp only [noActive, Bool.and_eq_true, Bool.not_eq_true'] at h
    exact ⟨h.1, h.2⟩

theorem noActiveL_parts (t : Test) (ts : List Test) (h : noActiveL (t :: ts) = true) :
    noActive t = true ∧ noActiveL ts = true := by
  simp only [noActiveL, Bool.and_eq_true] at h
  exact h

theorem allowedB_mime (exc : List String) (t : Test) (h : allowedB exc t = true) :
    ∃ m, t.setMime = some m ∧ (m == "") = false ∧ exc.contains m = false := by
  unfold allowedB at h
  rcases hm : t.setMime with _ | m
  · rw [hm] at h
    cases h
  · rw [hm] at h
    simp only [Bool.and_eq_true, Bool.not_eq_true'] at h
    exact ⟨m, rfl, h.1, h.2⟩

theorem allowedB_of_excepted (exc : List String) (t : Test) (m : String)
    (hm : t.setMime = some m) (hexc : exc.contains m = true) :
    allowedB exc t = false := by
  unfold allowedB
  rw [hm]
  have hmem : m ∈ exc := List.mem_of_elem_eq_true hexc
  simp [hmem]

theorem mimeOkB_false (exc : List String) (t : Test) (h : ¬mimeOkB exc t = true) :
    ∃ m, t.setMime = some m ∧ exc.contains m = true := by
  unfold mimeOkB at h
  rcases hm : t.setMime with _ | m
  · rw [hm] at h
    simp at h
  · rw [hm] at h
    simp only [Bool.not_eq_true'] at h
    exact ⟨m, rfl, by simpa using h⟩

mutual

/-- Every node of a pruned forest is active: the keep branch marks an
allowed subtest active, and the other branch keeps a subtest only when its
own pruning left it active. -/
theorem prunedL_all_active (exc : List String) (l : List Test) :
    ∀ u ∈ descendantsL (pruneSubs exc l), u.active = true := by
  cases l with
  | nil => intro u hu; simp [pruneSubs, descendantsL] at hu
  | cons t ts =>
    intro u hu
    by_cases h : allowedB exc t = true
    · simp only [pruneSubs, h, if_pos] at hu
      simp only [descendantsL, List.mem_append, List.mem_cons] at hu
      rcases hu with (h1 | h2) | h3
      · subst h1
        exact markActive_active _
      · rw [markActive_descendants] at h2
        exact pruned_descendants_active exc t u h2
      · exact prunedL_all_active exc ts u h3
    · simp only [pruneSubs, h, if_neg, not_false_iff, Bool.false_eq_true] at hu
      by_cases h2 : (pruneTree exc t).active = true
      · simp only [h2, if_pos] at hu
        simp only [descendantsL, List.mem_append, List.mem_cons] at hu
        rcases hu with (h1 | hd) | h3
        · subst h1
          exact h2
        · exact pruned_descendants_active exc t u hd
        · exact prunedL_all_active exc ts u h3
      · simp only [h2, if_neg, not_false_iff, Bool.false_eq_true] at hu
        exact prunedL_all_active exc ts u hu

theorem pruned_descendants_active (exc : List String) (t : Test) :
    ∀ u ∈ descendants (pruneTree exc t), u.active = true := by
  cases t with
  | mk d subs =>
    intro u hu
    simp only [pruneTree, descendants] at hu
    exact prunedL_all_active exc subs u hu

end

mutual

/-- hasAllowedDesc decides the presence of an allowed MIME among the strict
descendants. -/
theorem hasAllowedDesc_iff (exc : List String) (t : Test) :
    hasAllowedDesc exc t = true ↔ ∃ u ∈ descendants t, allowedB exc u = true := by
  cases t with
  | mk d subs =>
    simp only [hasAllowedDesc, descendants]
    exact hasAllowedDescL_iff exc subs

theorem hasAllowedDescL_iff (exc : List String) (l : List Test) :
    hasAllowedDescL exc l = true ↔ ∃ u ∈ descendantsL l, allowedB exc u = true := by
  cases l with
  | nil => simp [hasAllowedDescL, descendantsL]
  | cons t ts =>
    simp only [hasAllowedDescL, descendantsL, Bool.or_eq_true, List.mem_append,
      List.mem_cons]
    rw [hasAllowedDesc_iff exc t, hasAllowedDescL_iff exc ts]
    constructor
    · intro h
      rcases h with (h1 | ⟨u, hu, ha⟩) | ⟨u, hu, ha⟩
      · exact ⟨t, Or.inl (Or.inl rfl), h1⟩
      · exact ⟨u, Or.inl (Or.inr hu), ha⟩
      · exact ⟨u, Or.inr hu, ha⟩
    · intro ⟨u, hu, ha⟩
      rcases hu with (h1 | h2) | h3
      · subst h1
        exact Or.inl (Or.inl ha)
      · exact Or.inl (Or.inr ⟨u, h2, ha⟩)
      · exact Or.inr ⟨u, h3, ha⟩

end

/-- A forest containing an allowed MIME action somewhere keeps at least one
subtest. -/
theorem pruneSubs_ne_nil (exc : List String) (l : List Test)
    (h : hasAllowedDescL exc l = true) : pruneSubs exc l ≠ [] := by
  induction l with
  | nil => simp [hasAllowedDescL] at h
  | cons t ts ih =>
    simp only [hasAllowedDescL, Bool.or_eq_true] at h
    by_cases ha : allowedB exc t = true
    · simp only [pruneSubs, ha, if_pos]
      simp
    · simp only [pruneSubs, ha, if_neg, not_false_iff, Bool.false_eq_true]
      by_cases hact : (pruneTree exc t).active = true
      · simp only [hact, if_pos]
        simp
      · simp only [hact, if_neg, not_false_iff, Bool.false_eq_true]
        rcases h with (h1 | h2) | h3
        · exact absurd h1 ha
        · exfalso
          apply hact
          rw [pruneTree_active]
          cases t with
          | mk d subs =>
            simp only [hasAllowedDesc] at h2
            simp [Test.subtests, h2]
        · exact ih h3

mutual

/-- Strict descendants of a member of a forest's descendant list are again
in that list. -/
theorem descendants_closed (t : Test) :
    ∀ u ∈ descendants t, ∀ v ∈ descendants u, v ∈ descendants t := by
  cases t with
  | mk d subs =>
    intro u hu v hv
    simp only [descendants] at *
    exact descendantsL_closed subs u hu v hv

theorem descendantsL_closed (l : List Test) :
    ∀ u ∈ descendantsL l, ∀ v ∈ descendants u, v ∈ descendantsL l := by
  cases l with
  | nil => intro u hu; simp [descendantsL] at hu
  | cons t ts =>
    intro u hu v hv
    simp only [descendantsL, List.mem_append, List.mem_cons] at *
    rcases hu with (h1 | h2) | h3
    · subst h1
      exact Or.inl (Or.inr hv)
    · exact Or.inl (Or.inr (descendants_closed t u h2 v hv))
    · exact Or.inr (descendantsL_closed ts u h3 v hv)

end

/-- Every leaf of a pruned forest built from a tree with clear active flags
carries an allowed MIME (auxiliary form, by strong induction on a size
bound). -/
theorem prunedL_leaf_aux (exc : List String) :
    ∀ (n : Nat) (l : List Test), testListSize l ≤ n → noActiveL l = true →
      ∀ u ∈ descendantsL (pruneSubs exc l), u.subtests = [] →
        ∃ m, u.setMime = some m ∧ (m == "") = false ∧ exc.contains m = false := by
  intro n
  induction n with
  | zero =>
    intro l hle hna u hu
    cases l with
    | nil => simp [pruneSubs, descendantsL] at hu
    | cons t ts =>
      exfalso
      rw [testListSize] at hle
      have := testSize_pos t
      omega
  | succ n ih =>
    intro l hle hna u hu hleaf
    cases l with
    | nil => simp [pruneSubs, descendantsL] at hu
    | cons t ts =>
      rw [testListSize] at hle
      have hpos := testSize_pos t
      have hsubs := testListSize_subtests_lt t
      have hparts := noActiveL_parts t ts hna
      have hsubtree : ∀ v ∈ descendants (pruneTree exc t), v.subtests = [] →
          ∃ m, v.setMime = some m ∧ (m == "") = false ∧ exc.contains m = false := by
        intro v hv hvleaf
        rw [descendants_pruneTree] at hv
        exact ih t.subtests (by omega) (noActive_parts t hparts.1).2 v hv hvleaf
      by_cases h : allowedB exc t = true
      · simp only [pruneSubs, h, if_pos] at hu
        simp only [descendantsL, List.mem_append, List.mem_cons] at hu
        rcases hu with (h1 | h2) | h3
        · subst h1
          rw [markActive_setMime, pruneTree_setMime]
          exact allowedB_mime exc t h
        · rw [markActive_descendants] at h2
          exact hsubtree u h2 hleaf
        · exact ih ts (by omega) hparts.2 u h3 hleaf
      · simp only [pruneSubs, h, if_neg, not_false_iff, Bool.false_eq_true] at hu
        by_cases h2 : (pruneTree exc t).active = true
        · simp only [h2, if_pos] at hu
          simp only [descendantsL, List.mem_append, List.mem_cons] at hu
          rcases hu with (h1 | hd) | h3
          · exfalso
            subst h1
            rw [pruneTree_active, (noActive_parts t hparts.1).1, Bool.false_or] at h2
            have hne := pruneSubs_ne_nil exc t.subtests h2
            rw [pruneTree_subtests] at hleaf
            exact hne hleaf
          · exact hsubtree u hd hleaf
          · exact ih ts (by omega) hparts.2 u h3 hleaf
        · simp only [h2, if_neg, not_false_iff, Bool.false_eq_true] at hu
          exact ih ts (by omega) hparts.2 u hu hleaf

/-- Every leaf of a pruned forest built from a tree with clear active flags
carries an allowed MIME. -/
theorem prunedL_leaf (exc : List String) (l : List Test) (hna : noActiveL l = true) :
    ∀ u ∈ descendantsL (pruneSubs exc l), u.subtests = [] →
      ∃ m, u.setMime = some m ∧ (m == "") = false ∧ exc.contains m = false :=
  prunedL_leaf_aux exc (testListSize l) l (le_refl _) hna

/-- Every surviving leaf below a pruned tree with clear active flags
carries an allowed MIME. -/
theorem pruned_leaf (exc : List String) (t : Test) (hna : noActive t = true) :
    ∀ u ∈ descendants (pruneTree exc t), u.subtests = [] →
      ∃ m, u.setMime = some m ∧ (m == "") = false ∧ exc.contains m = false := by
  intro u hu hleaf
  rw [descendants_pruneTree] at hu
  exact prunedL_leaf exc t.subtests (noActive_parts t hna).2 u hu hleaf

/-- A nonempty subtest list yields a nonempty descendant list. -/
theorem descendants_ne_nil (t : Test) (h : ¬t.subtests = []) :
    ∃ d, d ∈ descendants t := by
  rcases hs : t.subtests with _ | ⟨c, cs⟩
  · exact absurd hs h
  · refine ⟨c, ?_⟩
    rw [descendants_eq_subtests, hs]
    simp [descendantsL]

/-- claim C1: after pruneTree runs on the root of a freshly parsed rule
tree (root MIME unset, all active flags clear), every remaining node either
has no excepted MIME or has an active descendant; every surviving non-root
node is active (hence reachable from the root through active ancestors);
and every leaf carries no excepted MIME (for non-root leaves, a present
allowed MIME). -/
theorem claim_c1 (exc : List String) (root : Test)
    (hmime : root.setMime = none) (hact : noActive root = true) :
    (∀ u ∈ nodes (pruneTree exc root),
       mimeOkB exc u = true ∨ ∃ d ∈ descendants u, d.active = true) ∧
    (∀ u ∈ descendants (pruneTree exc root), u.active = true) ∧
    (∀ u ∈ nodes (pruneTree exc root), u.subtests = [] → mimeOkB exc u = true) ∧
    (∀ u ∈ descendants (pruneTree exc root), u.subtests = [] →
       ∃ m, u.setMime = some m ∧ (m == "") = false ∧ exc.contains m = false) := by
  have hnosub := (noActive_parts root hact).2
  have hleaf := pruned_leaf exc root hact
  have hactive := pruned_descendants_active exc root
  have hrootmime : mimeOkB exc (pruneTree exc root) = true := by
    unfold mimeOkB
    rw [pruneTree_setMime, hmime]
  refine ⟨?_, hactive, ?_, hleaf⟩
  · intro u hu
    rcases List.mem_cons.mp hu with h1 | h2
    · subst h1
      exact Or.inl hrootmime
    · by_cases hok : mimeOkB exc u = true
      · exact Or.inl hok
      · right
        obtain ⟨m, hm, hexc⟩ := mimeOkB_false exc u hok
        have hne : ¬u.subtests = [] := by
          intro hsub
          obtain ⟨m2, hm2, _, hc2⟩ := hleaf u h2 hsub
          rw [hm] at hm2
          cases hm2
          rw [hexc] at hc2
          cases hc2
        obtain ⟨d, hd⟩ := descendants_ne_nil u hne
        refine ⟨d, hd, hactive d ?_⟩
        exact descendants_closed (pruneTree exc root) u h2 d hd
  · intro u hu hsub
    rcases List.mem_cons.mp hu with h1 | h2
    · subst h1
      exact hrootmime
    · obtain ⟨m, hm, _, hc⟩ := hleaf u h2 hsub
      unfold mimeOkB
      rw [hm]
      show (!exc.contains m) = true
      rw [hc]
      decide

/-- claim C1 witness: the theorem applied to a concrete two-node tree with
a one-entry exception set, at the pruned root node. -/
theorem claim_c1_witness :
    mimeOkB ["application/x-bad"]
        (pruneTree ["application/x-bad"]
          (Test.mk { fixData with level := -1 }
            [Test.mk { fixData with setMime := some "text/plain" } []])) = true ∨
      ∃ d ∈ descendants
          (pruneTree ["application/x-bad"]
            (Test.mk { fixData with level := -1 }
              [Test.mk { fixData with setMime := some "text/plain" } []])),
        d.active = true :=
  (claim_c1 ["application/x-bad"]
      (Test.mk { fixData with level := -1 }
        [Test.mk { fixData with setMime := some "text/plain" } []])
      rfl (by simp [noActive, noActiveL, fixData])).1 _
    (List.mem_cons_self _ _)



/-- claim C2: when a Test's setMime is set (truthy), putTestContent emits
exactly the MIME assignment and return Match (or aborts if the MIME does
not quote, emitting nothing), touching no other stream and emitting nothing
for any subtests; when setMime is not set it recursively emits the
subtests. -/
theorem claim_c2 (st : EmState) (t : Test) (level : Nat) :
    (∀ m, t.setMime = some m → ¬m = "" →
       putTestContent st t level = (quoteForCStr m).map (fun lit =>
         { st with code := st.code ++
             [mkIndent level ++ "*mime = " ++ lit ++ ";",
              mkIndent level ++ "return Match;"] })) ∧
    (truthy t.setMime = false → putTestContent st t level = putTests st t.subtests level) := by
  constructor
  · intro m hm hne
    have htr : truthy t.setMime = true := by
      rw [hm]
      simp [truthy, hne]
    rw [putTestContent]
    rw [if_pos htr, hm]
    rcases hq : quoteForCStr m with _ | lit
    · simp [quoteForCOpt, hq]
    · simp [quoteForCOpt, hq]
  · intro hf
    rw [putTestContent]
    rw [if_neg (by simp [hf])]

/-- claim C2 witness: a Test with a MIME and a subtest emits only the two
MIME lines. -/
theorem claim_c2_witness :
    putTestContent ⟨[], [], [], 1⟩
        (Test.mk { fixData with setMime := some "text/html" } [Test.mk fixData []]) 1 =
      (quoteForCStr "text/html").map (fun lit =>
        { code := ["    *mime = " ++ lit ++ ";", "    return Match;"],
          dataStrm := [], decls := [], mapCount := 1 }) := by
  have h := (claim_c2 ⟨[], [], [], 1⟩
      (Test.mk { fixData with setMime := some "text/html" } [Test.mk fixData []]) 1).1
      "text/html" rfl (by decide)
  rw [h]
  rcases hq : quoteForCStr "text/html" with _ | lit
  · simp [hq]
  · simp [hq, mkIndent, IndentStep]
    constructor <;> rfl



theorem dropWhile_idem (p : α → Bool) (l : List α) :
    (l.dropWhile p).dropWhile p = l.dropWhile p := by
  cases h : l.dropWhile p with
  | nil => rfl
  | cons c t =>
    have hc := dropWhile_head_not p l c t h
    rw [List.dropWhile_cons_of_neg (by simp [hc])]

theorem pySplit1_two (l : List Char) (h : 2 ≤ (pySplit1 l).length) :
    ∃ t r, pySplit1 l = [t, r] ∧ r.dropWhile isPySpace = r ∧ ¬r = [] := by
  cases h1 : l.dropWhile isPySpace with
  | nil =>
    simp only [pySplit1, h1, List.length_nil] at h
    omega
  | cons a as =>
    by_cases hr : (((a :: as).dropWhile (fun c => !isPySpace c)).dropWhile isPySpace).isEmpty
    · simp only [pySplit1, h1] at h
      rw [if_pos hr] at h
      simp at h
    · refine ⟨(a :: as).takeWhile (fun c => !isPySpace c),
        ((a :: as).dropWhile (fun c => !isPySpace c)).dropWhile isPySpace, ?_, ?_, ?_⟩
      · simp only [pySplit1, h1]
        rw [if_neg hr]
      · exact dropWhile_idem _ _
      · intro hnil
        rw [hnil] at hr
        exact hr rfl

theorem pySplit1_cons (l : List Char) (h : ¬l.dropWhile isPySpace = []) :
    (∃ t, pySplit1 l = [t]) ∨ ∃ t r, pySplit1 l = [t, r] := by
  cases h1 : l.dropWhile isPySpace with
  | nil => exact absurd h1 h
  | cons a as =>
    by_cases hr : (((a :: as).dropWhile (fun c => !isPySpace c)).dropWhile isPySpace).isEmpty
    · left
      refine ⟨(a :: as).takeWhile (fun c => !isPySpace c), ?_⟩
      simp only [pySplit1, h1]
      rw [if_pos hr]
    · right
      refine ⟨(a :: as).takeWhile (fun c => !isPySpace c),
        ((a :: as).dropWhile (fun c => !isPySpace c)).dropWhile isPySpace, ?_⟩
      simp only [pySplit1, h1]
      rw [if_neg hr]

/-- claim C6 counterexample: a line of level markers plus one field has two
whitespace-separated fields yet splitLine fails (the two-element unpacking
sees one field after the level strip), and the message of "0 t T  a" is
"a", stripped on both sides, not the right-trimmed " a" the claim
promises. -/
theorem claim_c6_counterexample :
    splitLine ['>', '>', '>', ' ', 'x'] = none ∧
      (splitLine ['0', ' ', 't', ' ', 'T', ' ', ' ', 'a']).map Fields.msg =
        some ['a'] := by
  decide

/-- claim C6 (amended): splitLine succeeds on every line that still has at
least two whitespace-separated fields after the level markers are removed,
returning the level, offset and test fields and the scanner applied to the
remainder, with the message stripped on BOTH sides (the original claim said
right-trimmed, and counted fields before the level strip); and the target
scanner obeys the claimed quoting rules: backslash-space yields a bare
space, backslash-other keeps the backslash, and an unquoted space or tab
ends the target. -/
theorem claim_c6 (line : List Char)
    (h2 : 2 ≤ (pySplit1 (stripLevels line).2).length) :
    (∃ offset rest, pySplit1 (stripLevels line).2 = [offset, rest] ∧
      ((∃ test r2, pySplit1 rest = [test, r2] ∧
          splitLine line = some ⟨(stripLevels line).1, offset, test,
            (scanTarget r2).1, pyStrip (scanTarget r2).2⟩) ∨
       (∃ test, pySplit1 rest = [test] ∧
          splitLine line = some ⟨(stripLevels line).1, offset, test, [], []⟩))) ∧
    (∀ r, scanTarget ('\\' :: ' ' :: r) = (' ' :: (scanTarget r).1, (scanTarget r).2)) ∧
    (∀ c r, ¬c = ' ' → scanTarget ('\\' :: c :: r) =
        ('\\' :: c :: (scanTarget r).1, (scanTarget r).2)) ∧
    (∀ c r, ¬c = '\\' → (c = ' ' ∨ c = '\t') → scanTarget (c :: r) = ([], r)) := by
  refine ⟨?_, ?_, ?_, ?_⟩
  · obtain ⟨offset, rest, hsp, hdw, hne⟩ := pySplit1_two _ h2
    refine ⟨offset, rest, hsp, ?_⟩
    have hcons : ¬rest.dropWhile isPySpace = [] := by rw [hdw]; exact hne
    rcases pySplit1_cons rest hcons with ⟨t, ht⟩ | ⟨t, r2, ht⟩
    · right
      refine ⟨t, ht, ?_⟩
      simp only [splitLine, hsp, ht]
    · left
      refine ⟨t, r2, ht, ?_⟩
      simp only [splitLine, hsp, ht]
  · intro r
    simp [scanTarget]
  · intro c r hc
    simp [scanTarget, hc]
  · intro c r hc hsp
    rcases hsp with rfl | rfl <;> simp [scanTarget]

/-- claim C6 witness: the line "0 t ab cd" splits with offset "0", test
"t", target "ab" and message "cd". -/
theorem claim_c6_witness :
    2 ≤ (pySplit1 (stripLevels ['0', ' ', 't', ' ', 'a', 'b', ' ', 'c', 'd']).2).length ∧
    (    (∃ offset rest, pySplit1 (stripLevels ['0', ' ', 't', ' ', 'a', 'b', ' ', 'c', 'd']).2 = [offset, rest] ∧
      ((∃ test r2, pySplit1 rest = [test, r2] ∧
          splitLine ['0', ' ', 't', ' ', 'a', 'b', ' ', 'c', 'd'] = some ⟨(stripLevels ['0', ' ', 't', ' ', 'a', 'b', ' ', 'c', 'd']).1, offset, test,
            (scanTarget r2).1, pyStrip (scanTarget r2).2⟩) ∨
       (∃ test, pySplit1 rest = [test] ∧
          splitLine ['0', ' ', 't', ' ', 'a', 'b', ' ', 'c', 'd'] = some ⟨(stripLevels ['0', ' ', 't', ' ', 'a', 'b', ' ', 'c', 'd']).1, offset, test, [], []⟩))) ∧
    (∀ r, scanTarget ('\\' :: ' ' :: r) = (' ' :: (scanTarget r).1, (scanTarget r).2)) ∧
    (∀ c r, ¬c = ' ' → scanTarget ('\\' :: c :: r) =
        ('\\' :: c :: (scanTarget r).1, (scanTarget r).2)) ∧
    (∀ c r, ¬c = '\\' → (c = ' ' ∨ c = '\t') → scanTarget (c :: r) = ([], r))) :=
  ⟨by decide, claim_c6 ['0', ' ', 't', ' ', 'a', 'b', ' ', 'c', 'd'] (by decide)⟩



/-- Looking a key up after an addToDict: the added item lands at the end of
its own key's entry and every other key is untouched (both addToDict and
lookupList work on the first matching entry). -/
theorem lookupList_addToDict (d : List (Nat × List Test)) (k2 k : Nat) (i : Test) :
    lookupList (addToDict d k2 i) k =
      if k2 == k then lookupList d k ++ [i] else lookupList d k := by
  induction d with
  | nil =>
    by_cases h : k2 = k
    · subst h; simp [addToDict, lookupList]
    · simp [addToDict, lookupList, h]
  | cons kv rest ih =>
    obtain ⟨k3, l⟩ := kv
    by_cases h3 : k3 = k2
    · subst h3
      rw [addToDict]
      rw [if_pos (by simp)]
      by_cases hk : k3 = k
      · subst hk
        simp [lookupList]
      · simp [lookupList, hk]
    · rw [addToDict]
      rw [if_neg (by simp [h3])]
      by_cases hk : k3 = k
      · subst hk
        have h2k : ¬k2 = k3 := fun h => h3 h.symm
        simp [lookupList, h2k]
      · simp [lookupList, hk, ih]

/-- lookupList of partitionByKey is the filter by that key, in source
order. -/
theorem lookupList_partitionByKey (items : List Test) (f : Test → Nat) (k : Nat) :
    lookupList (partitionByKey items f) k = items.filter (fun i => f i == k) := by
  suffices h : ∀ d, lookupList (items.foldl (fun result i => addToDict result (f i) i) d) k =
      lookupList d k ++ items.filter (fun i => f i == k) by
    simpa [partitionByKey, lookupList] using h []
  induction items with
  | nil => intro d; simp
  | cons a as ih =>
    intro d
    simp only [List.foldl_cons]
    rw [ih (addToDict d (f a) a), lookupList_addToDict]
    by_cases h : f a = k
    · subst h
      simp [List.filter_cons]
    · simp [List.filter_cons, h]

/-- The key list of an addToDict: unchanged when the key is present, the
key appended when it is new. -/
theorem keys_addToDict (d : List (Nat × List Test)) (k : Nat) (i : Test) :
    (addToDict d k i).map Prod.fst =
      if k ∈ d.map Prod.fst then d.map Prod.fst else d.map Prod.fst ++ [k] := by
  induction d with
  | nil => simp [addToDict]
  | cons kv rest ih =>
    obtain ⟨k2, l⟩ := kv
    by_cases h2 : k2 = k
    · subst h2
      rw [addToDict, if_pos (by simp)]
      simp
    · rw [addToDict, if_neg (by simp [h2])]
      have hk2 : ¬k = k2 := fun h => h2 h.symm
      simp only [List.map_cons, ih]
      by_cases hm : k ∈ rest.map Prod.fst
      · rw [if_pos hm, if_pos (by simp [hm])]
      · rw [if_neg hm, if_neg (by simp [hm, hk2])]
        simp

/-- addToDict keeps the key list duplicate-free. -/
theorem nodup_keys_addToDict (d : List (Nat × List Test)) (k : Nat) (i : Test)
    (h : (d.map Prod.fst).Nodup) : ((addToDict d k i).map Prod.fst).Nodup := by
  rw [keys_addToDict]
  by_cases hm : k ∈ d.map Prod.fst
  · rw [if_pos hm]; exact h
  · rw [if_neg hm]
    rw [List.nodup_append]
    refine ⟨h, List.nodup_singleton k, ?_⟩
    intro a ha hak
    have hae : a = k := by simpa using hak
    subst hae
    exact hm ha

/-- Membership of the key list survives an addToDict. -/
theorem mem_keys_addToDict (d : List (Nat × List Test)) (k k2 : Nat) (i : Test)
    (h : k2 ∈ d.map Prod.fst) : k2 ∈ (addToDict d k i).map Prod.fst := by
  rw [keys_addToDict]
  by_cases hm : k ∈ d.map Prod.fst
  · rw [if_pos hm]; exact h
  · rw [if_neg hm]; exact List.mem_append_left _ h

/-- The key list of partitionByKey is duplicate-free. -/
theorem nodup_keys_partitionByKey (items : List Test) (f : Test → Nat) :
    ((partitionByKey items f).map Prod.fst).Nodup := by
  suffices h : ∀ d, (d.map Prod.fst).Nodup →
      (((items.foldl (fun result i => addToDict result (f i) i) d)).map Prod.fst).Nodup from
    h [] (by simp)
  induction items with
  | nil => intro d hd; simpa using hd
  | cons a as ih =>
    intro d hd
    simp only [List.foldl_cons]
    exact ih _ (nodup_keys_addToDict d (f a) a hd)

/-- Every item's key appears in the key list of partitionByKey. -/
theorem mem_keys_partitionByKey (items : List Test) (f : Test → Nat) (t : Test)
    (h : t ∈ items) : f t ∈ (partitionByKey items f).map Prod.fst := by
  suffices hs : ∀ d, (f t ∈ d.map Prod.fst ∨ t ∈ items) →
      f t ∈ ((items.foldl (fun result i => addToDict result (f i) i) d)).map Prod.fst from
    hs [] (Or.inr h)
  clear h
  induction items with
  | nil =>
    intro d hd
    rcases hd with hd | hd
    · simpa using hd
    · cases hd
  | cons a as ih =>
    intro d hd
    simp only [List.foldl_cons]
    rcases hd with hd | hd
    · exact ih _ (Or.inl (mem_keys_addToDict d (f a) (f t) a hd))
    · rcases List.mem_cons.mp hd with rfl | hd
      · refine ih _ (Or.inl ?_)
        rw [keys_addToDict]
        by_cases hm : f t ∈ d.map Prod.fst
        · rw [if_pos hm]; exact hm
        · rw [if_neg hm]; simp
      · exact ih _ (Or.inr hd)

/-- Pre-filtering by a weaker predicate does not change a filter. -/
theorem filter_sub (p q : α → Bool) (l : List α) (h : ∀ a, p a = true → q a = true) :
    (l.filter q).filter p = l.filter p := by
  induction l with
  | nil => rfl
  | cons a as ih =>
    by_cases hq : q a
    · rw [List.filter_cons_of_pos hq, List.filter_cons, List.filter_cons, ih]
    · have hp : ¬p a = true := fun hpa => hq (h a hpa)
      rw [List.filter_cons_of_neg (by simpa using hq), List.filter_cons_of_neg (by simpa using hp), ih]

/-- Concatenating the filters over a duplicate-free covering key list gives
back the list, up to permutation. -/
theorem flatMap_filter_perm (g : Test → Nat) (ks : List Nat) (l : List Test)
    (hnd : ks.Nodup) (hcov : ∀ t ∈ l, g t ∈ ks) :
    List.Perm (ks.flatMap (fun p => l.filter (fun t => g t == p))) l := by
  induction ks generalizing l with
  | nil =>
    cases l with
    | nil => simp
    | cons a as => exact absurd (hcov a (by simp)) (by simp)
  | cons k ks ih =>
    rw [List.flatMap_cons]
    have hks : ∀ p ∈ ks, (l.filter (fun t => !(g t == k))).filter (fun t => g t == p) =
        l.filter (fun t => g t == p) := by
      intro p hp
      have hpk : ¬p = k := fun h => (List.nodup_cons.mp hnd).1 (h ▸ hp)
      refine filter_sub _ _ l (fun a ha => ?_)
      have : g a = p := by simpa using ha
      simp [this, hpk]
    have hcov2 : ∀ t ∈ l.filter (fun t => !(g t == k)), g t ∈ ks := by
      intro t ht
      have h1 := List.mem_filter.mp ht
      have := hcov t h1.1
      rcases List.mem_cons.mp this with h2 | h2
      · exfalso
        have h3 : (g t == k) = true := by simp [h2]
        have h4 := h1.2
        rw [h3] at h4
        simp at h4
      · exact h2
    have hrest : List.Perm (ks.flatMap (fun p => l.filter (fun t => g t == p)))
        (l.filter (fun t => !(g t == k))) := by
      have hmap : ks.map (fun p => l.filter (fun t => g t == p)) =
          ks.map (fun p => (l.filter (fun t => !(g t == k))).filter (fun t => g t == p)) :=
        (List.map_congr_left (fun p hp => (hks p hp).symm))
      rw [List.flatMap_def, hmap, ← List.flatMap_def]
      exact ih _ (List.nodup_cons.mp hnd).2 hcov2
    exact (List.Perm.append_left _ hrest).trans (List.filter_append_perm _ l)

/-- A flatMap over a duplicate-free list in which at most one key produces
output collapses to that key's output. -/
theorem flatMap_single (ks : List Nat) (F : Nat → List Test) (p : Nat)
    (hnd : ks.Nodup) (h0 : ∀ k ∈ ks, ¬k = p → F k = []) :
    ks.flatMap F = if p ∈ ks then F p else [] := by
  induction ks with
  | nil => simp
  | cons k ks ih =>
    rw [List.flatMap_cons]
    by_cases hk : k = p
    · subst hk
      have : ∀ k2 ∈ ks, F k2 = [] := by
        intro k2 hk2
        exact h0 k2 (by simp [hk2]) (fun h => (List.nodup_cons.mp hnd).1 (h ▸ hk2))
      have hflat : ks.flatMap F = [] := by
        rw [List.flatMap_def]
        rw [List.map_congr_left this]
        simp
      rw [hflat, if_pos (by simp)]
      simp
    · rw [h0 k (by simp) hk, List.nil_append,
        ih (List.nodup_cons.mp hnd).2 (fun k2 hk2 => h0 k2 (by simp [hk2]))]
      by_cases hp : p ∈ ks
      · rw [if_pos hp, if_pos (by simp [hp])]
      · have hpk : ¬p = k := fun h => hk h.symm
        rw [if_neg hp, if_neg (by simp [hp, hpk])]

/-- Filtering distributes over flatMap. -/
theorem filter_flatMap (ks : List Nat) (F : Nat → List Test) (q : Test → Bool) :
    (ks.flatMap F).filter q = ks.flatMap (fun k => (F k).filter q) := by
  induction ks with
  | nil => rfl
  | cons k ks ih => rw [List.flatMap_cons, List.flatMap_cons, List.filter_append, ih]

/-- Pointwise permutations lift to flatMap. -/
theorem flatMap_perm_congr (ks : List Nat) (F G : Nat → List Test)
    (h : ∀ k ∈ ks, List.Perm (F k) (G k)) :
    List.Perm (ks.flatMap F) (ks.flatMap G) := by
  induction ks with
  | nil => simp
  | cons k ks ih =>
    rw [List.flatMap_cons, List.flatMap_cons]
    exact (h k (by simp)).append (ih (fun k2 hk2 => h k2 (by simp [hk2])))


/-- putTests2's emission order is the concatenation of the six groups. -/
theorem putTests2Order_eq (l : List Test) :
    putTests2Order l = c3g1 l ++ c3g2 l ++ c3g3 l ++ c3g4 l ++ c3g5 l ++ c3g6 l := rfl

theorem c3g1_eq (l : List Test) : c3g1 l = l.filter isSimpleBeShort := rfl

theorem c3rest1_eq (l : List Test) :
    c3rest1 l = l.filter (fun t => !isSimpleBeShort t) := rfl

theorem c3g2_eq (l : List Test) :
    c3g2 l = ((c3rest1 l).filter
      (fun t => isSimpleString t && t.targetOper == "=")).filter isSimpleStringMime := rfl

theorem c3g3_eq (l : List Test) :
    c3g3 l = ((c3rest1 l).filter
      (fun t => isSimpleString t && t.targetOper == "=")).filter
        (fun t => !isSimpleStringMime t) := rfl

theorem c3g4_eq (l : List Test) :
    c3g4 l = (c3rest1 l).filter (fun t => isSimpleString t && t.targetOper == "=!") := rfl

theorem c3g5_eq (l : List Test) :
    c3g5 l = (c3rest1 l).filter
      (fun t => isSimpleString t && !(t.targetOper == "=") && !(t.targetOper == "=!")) := rfl

theorem c3g6_eq (l : List Test) :
    c3g6 l = (c3rest1 l).filter (fun t => !isSimpleString t) := rfl

/-- Successive filters commute. -/
theorem filter_comm (p q : α → Bool) (m : List α) :
    (m.filter p).filter q = (m.filter q).filter p := by
  rw [List.filter_filter, List.filter_filter]
  exact List.filter_congr (fun a _ => Bool.and_comm _ _)

/-- An inequality operator is not the equality operator. -/
theorem targetOper_neq_of_ne (a : Test) (h : (a.targetOper == "=!") = true) :
    (a.targetOper == "=") = false := by
  have h2 : a.targetOper = "=!" := by simpa using h
  simp [h2]

/-- The equality-group filter, written as a filter of the simple-string
tests. -/
theorem c3gE_split (l : List Test) :
    ((c3rest1 l).filter isSimpleString).filter (fun t => t.targetOper == "=") =
      (c3rest1 l).filter (fun t => isSimpleString t && t.targetOper == "=") := by
  rw [List.filter_filter]
  exact List.filter_congr (fun a _ => Bool.and_comm _ _)

/-- The inequality group, written as a filter of the non-equality
simple-string tests. -/
theorem c3g4_split (l : List Test) :
    (((c3rest1 l).filter isSimpleString).filter
        (fun t => !(t.targetOper == "="))).filter (fun t => t.targetOper == "=!") =
      c3g4 l := by
  rw [c3g4_eq, List.filter_filter, List.filter_filter]
  refine List.filter_congr (fun a _ => ?_)
  by_cases h : a.targetOper = "=!"
  · have h1 : (a.targetOper == "=!") = true := by simp [h]
    have h2 := targetOper_neq_of_ne a h1
    rw [h1, h2]
    cases isSimpleString a <;> rfl
  · have h1 : (a.targetOper == "=!") = false := by simp [h]
    rw [h1]
    simp

/-- The other-operator group, written as a filter of the non-equality
simple-string tests. -/
theorem c3g5_split (l : List Test) :
    (((c3rest1 l).filter isSimpleString).filter
        (fun t => !(t.targetOper == "="))).filter (fun t => !(t.targetOper == "=!")) =
      c3g5 l := by
  rw [c3g5_eq, List.filter_filter, List.filter_filter]
  refine List.filter_congr (fun a _ => ?_)
  cases h1 : (a.targetOper == "=!") <;> cases h2 : (a.targetOper == "=") <;>
    cases h3 : isSimpleString a <;> rfl

/-- putTests2 emits a permutation of its input class. -/
theorem putTests2Order_perm (l : List Test) : List.Perm (putTests2Order l) l := by
  have h23 : List.Perm (c3g2 l ++ c3g3 l)
      ((c3rest1 l).filter (fun t => isSimpleString t && t.targetOper == "=")) := by
    rw [c3g2_eq, c3g3_eq]
    exact List.filter_append_perm _ _
  have h45 : List.Perm (c3g4 l ++ c3g5 l)
      (((c3rest1 l).filter isSimpleString).filter (fun t => !(t.targetOper == "="))) := by
    rw [← c3g4_split, ← c3g5_split]
    exact List.filter_append_perm _ _
  have hEN : List.Perm
      (((c3rest1 l).filter (fun t => isSimpleString t && t.targetOper == "=")) ++
        ((c3rest1 l).filter isSimpleString).filter (fun t => !(t.targetOper == "=")))
      ((c3rest1 l).filter isSimpleString) := by
    rw [← c3gE_split]
    exact List.filter_append_perm _ _
  have hS : List.Perm ((c3rest1 l).filter isSimpleString ++ c3g6 l) (c3rest1 l) := by
    rw [c3g6_eq]
    exact List.filter_append_perm _ _
  have s3 : List.Perm ((c3g2 l ++ c3g3 l) ++ (c3g4 l ++ c3g5 l))
      ((c3rest1 l).filter isSimpleString) := (h23.append h45).trans hEN
  have s4 : List.Perm (((c3g2 l ++ c3g3 l) ++ (c3g4 l ++ c3g5 l)) ++ c3g6 l)
      (c3rest1 l) := (List.Perm.append_right _ s3).trans hS
  have s5 : List.Perm (c3g1 l ++ (((c3g2 l ++ c3g3 l) ++ (c3g4 l ++ c3g5 l)) ++ c3g6 l))
      (c3g1 l ++ c3rest1 l) := List.Perm.append_left _ s4
  have s6 : List.Perm (c3g1 l ++ c3rest1 l) l := by
    rw [c3g1_eq, c3rest1_eq]
    exact List.filter_append_perm _ _
  have hassoc : c3g1 l ++ c3g2 l ++ c3g3 l ++ c3g4 l ++ c3g5 l ++ c3g6 l =
      c3g1 l ++ (((c3g2 l ++ c3g3 l) ++ (c3g4 l ++ c3g5 l)) ++ c3g6 l) := by
    simp [List.append_assoc]
  rw [putTests2Order_eq, hassoc]
  exact s5.trans s6


/-- Every group commutes with an outer filter. -/
theorem c3rest1_filter (l : List Test) (q : Test → Bool) :
    c3rest1 (l.filter q) = (c3rest1 l).filter q := by
  rw [c3rest1_eq, c3rest1_eq]
  exact filter_comm q _ l

theorem c3g1_filter (l : List Test) (q : Test → Bool) :
    c3g1 (l.filter q) = (c3g1 l).filter q := by
  rw [c3g1_eq, c3g1_eq]
  exact filter_comm q _ l

theorem c3g2_filter (l : List Test) (q : Test → Bool) :
    c3g2 (l.filter q) = (c3g2 l).filter q := by
  rw [c3g2_eq, c3g2_eq, c3rest1_filter, filter_comm q _ (c3rest1 l), filter_comm q _ _]

theorem c3g3_filter (l : List Test) (q : Test → Bool) :
    c3g3 (l.filter q) = (c3g3 l).filter q := by
  rw [c3g3_eq, c3g3_eq, c3rest1_filter, filter_comm q _ (c3rest1 l), filter_comm q _ _]

theorem c3g4_filter (l : List Test) (q : Test → Bool) :
    c3g4 (l.filter q) = (c3g4 l).filter q := by
  rw [c3g4_eq, c3g4_eq, c3rest1_filter, filter_comm q _ (c3rest1 l)]

theorem c3g5_filter (l : List Test) (q : Test → Bool) :
    c3g5 (l.filter q) = (c3g5 l).filter q := by
  rw [c3g5_eq, c3g5_eq, c3rest1_filter, filter_comm q _ (c3rest1 l)]

theorem c3g6_filter (l : List Test) (q : Test → Bool) :
    c3g6 (l.filter q) = (c3g6 l).filter q := by
  rw [c3g6_eq, c3g6_eq, c3rest1_filter, filter_comm q _ (c3rest1 l)]

/-- putTests2's emission order commutes with filtering the class. -/
theorem putTests2Order_filter (l : List Test) (q : Test → Bool) :
    putTests2Order (l.filter q) = (putTests2Order l).filter q := by
  rw [putTests2Order_eq, putTests2Order_eq,
    List.filter_append, List.filter_append, List.filter_append, List.filter_append,
    List.filter_append, c3g1_filter, c3g2_filter, c3g3_filter, c3g4_filter,
    c3g5_filter, c3g6_filter]

/-- Members of a class's emission carry the class's priority. -/
theorem prio_of_mem_class (tests : List Test) (p : Nat) (t : Test)
    (h : t ∈ putTests2Order
      (lookupList (partitionByKey tests (fun t => t.priority)) p)) :
    t.priority = p := by
  have h2 := (putTests2Order_perm _).mem_iff.mp h
  rw [lookupList_partitionByKey] at h2
  have h3 := (List.mem_filter.mp h2).2
  simpa using h3


/-- claim C3 counterexample: two same-priority simple-string siblings,
neither in the be-short group nor the string map, still swap: putTests2
emits the equality test before the inequality test that preceded it in
source order. -/
theorem claim_c3_counterexample :
    (putTests2Order [c3neq, c3eq]).map Test.targetOper = ["=", "=!"] ∧
      isSimpleBeShort c3neq = false ∧ isSimpleBeShort c3eq = false ∧
      isSimpleStringMime c3neq = false ∧ isSimpleStringMime c3eq = false ∧
      c3neq.priority = c3eq.priority := by
  decide

/-- claim C3 (amended): the emission order is sorted by priority, is a
permutation of the sibling group, and each priority class is emitted as its
own source-ordered slice; but within a class the order is the six-group
split (be-short, string map, string equality, string inequality, string
other-operator, general), each group individually source-ordered (a
sublist), not the two-extraction order of the original claim. -/
theorem claim_c3 (tests : List Test) :
    List.Pairwise (fun a b => a.priority ≤ b.priority) (putTestsOrder tests) ∧
    List.Perm (putTestsOrder tests) tests ∧
    (∀ p, (putTestsOrder tests).filter (fun t => t.priority == p) =
       putTests2Order (tests.filter (fun t => t.priority == p))) ∧
    (∀ l : List Test,
       putTests2Order l = c3g1 l ++ c3g2 l ++ c3g3 l ++ c3g4 l ++ c3g5 l ++ c3g6 l ∧
       (c3g1 l).Sublist l ∧ (c3g2 l).Sublist l ∧ (c3g3 l).Sublist l ∧
       (c3g4 l).Sublist l ∧ (c3g5 l).Sublist l ∧ (c3g6 l).Sublist l) := by
  have hndk : ((partitionByKey tests (fun t => t.priority)).map (fun kv => kv.1)).Nodup :=
    nodup_keys_partitionByKey tests _
  refine ⟨?_, ?_, ?_, ?_⟩
  · simp only [putTestsOrder]
    rw [List.flatMap_def, List.pairwise_flatten]
    constructor
    · intro m hm
      obtain ⟨p, hp, rfl⟩ := List.mem_map.mp hm
      refine List.pairwise_of_forall_mem_list (fun x hx y hy => ?_)
      rw [prio_of_mem_class tests p x hx, prio_of_mem_class tests p y hy]
    · rw [List.pairwise_map]
      refine List.Pairwise.imp ?_ (List.sorted_insertionSort (fun a b => a ≤ b) _)
      intro p1 p2 hle x hx y hy
      rw [prio_of_mem_class tests p1 x hx, prio_of_mem_class tests p2 y hy]
      exact hle
  · simp only [putTestsOrder]
    have hstep1 : List.Perm
        ((List.insertionSort (fun a b => a ≤ b)
          ((partitionByKey tests (fun t => t.priority)).map (fun kv => kv.1))).flatMap
            (fun p => putTests2Order (lookupList (partitionByKey tests (fun t => t.priority)) p)))
        ((List.insertionSort (fun a b => a ≤ b)
          ((partitionByKey tests (fun t => t.priority)).map (fun kv => kv.1))).flatMap
            (fun p => tests.filter (fun t => t.priority == p))) := by
      refine flatMap_perm_congr _ _ _ (fun k hk => ?_)
      rw [lookupList_partitionByKey]
      exact putTests2Order_perm _
    have hstep2 : List.Perm
        ((List.insertionSort (fun a b => a ≤ b)
          ((partitionByKey tests (fun t => t.priority)).map (fun kv => kv.1))).flatMap
            (fun p => tests.filter (fun t => t.priority == p)))
        (((partitionByKey tests (fun t => t.priority)).map (fun kv => kv.1)).flatMap
            (fun p => tests.filter (fun t => t.priority == p))) := by
      rw [List.flatMap_def, List.flatMap_def]
      exact ((List.perm_insertionSort _ _).map _).flatten
    have hstep3 : List.Perm
        (((partitionByKey tests (fun t => t.priority)).map (fun kv => kv.1)).flatMap
            (fun p => tests.filter (fun t => t.priority == p)))
        tests := by
      refine flatMap_filter_perm (fun t => t.priority) _ tests hndk (fun t ht => ?_)
      exact mem_keys_partitionByKey tests _ t ht
    exact hstep1.trans (hstep2.trans hstep3)
  · intro p
    simp only [putTestsOrder]
    rw [filter_flatMap]
    rw [flatMap_single _ _ p ((List.perm_insertionSort _ _).symm.nodup hndk) ?h0]
    case h0 =>
      intro k hk hkp
      refine List.filter_eq_nil_iff.mpr (fun a ha => ?_)
      intro hbeq
      have hak := prio_of_mem_class tests k a ha
      rw [hak] at hbeq
      exact hkp (by simpa using hbeq)
    by_cases hp : p ∈ List.insertionSort (fun a b => a ≤ b)
        ((partitionByKey tests (fun t => t.priority)).map (fun kv => kv.1))
    · rw [if_pos hp, lookupList_partitionByKey, ← putTests2Order_filter]
      rw [List.filter_filter]
      exact congrArg _ (List.filter_congr (fun a _ => Bool.and_self _))
    · rw [if_neg hp]
      have hnil : tests.filter (fun t => t.priority == p) = [] := by
        refine List.filter_eq_nil_iff.mpr (fun a ha => ?_)
        intro hbeq
        have hap : a.priority = p := by simpa using hbeq
        refine hp ((List.perm_insertionSort (fun a b => a ≤ b) _).mem_iff.mpr ?_)
        rw [← hap]
        exact mem_keys_partitionByKey tests _ a ha
      rw [hnil]
      rfl
  · intro l
    refine ⟨putTests2Order_eq l, ?_, ?_, ?_, ?_, ?_, ?_⟩
    · rw [c3g1_eq]
      exact List.filter_sublist l
    · rw [c3g2_eq, c3rest1_eq]
      exact ((List.filter_sublist _).trans (List.filter_sublist _)).trans (List.filter_sublist _)
    · rw [c3g3_eq, c3rest1_eq]
      exact ((List.filter_sublist _).trans (List.filter_sublist _)).trans (List.filter_sublist _)
    · rw [c3g4_eq, c3rest1_eq]
      exact (List.filter_sublist _).trans (List.filter_sublist _)
    · rw [c3g5_eq, c3rest1_eq]
      exact (List.filter_sublist _).trans (List.filter_sublist _)
    · rw [c3g6_eq, c3rest1_eq]
      exact (List.filter_sublist _).trans (List.filter_sublist _)


/-- Char.ofNat round-trips on codes below the surrogate range. -/
theorem char_toNat_ofNat (n : Nat) (h : n < 55296) : (Char.ofNat n).toNat = n := by
  unfold Char.ofNat
  rw [dif_pos (by unfold Nat.isValidChar; omega)]
  simp [Char.toNat, Char.ofNatAux, UInt32.toNat]

/-- The percent-02x digit characters are hexadecimal digits. -/
theorem isHexDig_hexDigChar (n : Nat) (h : n < 16) : isHexDig (hexDigChar n) = true := by
  interval_cases n <;> decide

/-- The percent-02x digit characters decode to their value. -/
theorem hexVal_hexDigChar (n : Nat) (h : n < 16) : hexVal (hexDigChar n) = n := by
  interval_cases n <;> decide

/-- The empty chunk parses to no bytes. -/
theorem chunkParse_nil : ChunkParse [] [] := by
  unfold ChunkParse
  intro rest
  cases h : clpIn rest <;> simp [h]

/-- Chunk parses concatenate. -/
theorem chunkParse_append {p1 p2 : List Char} {b1 b2 : List Nat}
    (h1 : ChunkParse p1 b1) (h2 : ChunkParse p2 b2) : ChunkParse (p1 ++ p2) (b1 ++ b2) := by
  unfold ChunkParse at h1 h2 ⊢
  intro rest
  rw [List.append_assoc, h1 (p2 ++ rest), h2 rest]
  cases clpIn rest <;> simp

/-- A table escape chunk parses back to its byte. -/
theorem chunkParse_escape (b : Nat) (k : Char) (h : cUnescapes b = some k) :
    ChunkParse ['\\', k] [b] := by
  unfold cUnescapes at h
  split_ifs at h <;>
    first
      | exact Option.noConfusion h
      | (injection h with hk
         subst hk
         subst_vars
         unfold ChunkParse
         intro rest
         simp [clpIn, clpEsc, cEscMapParse, isOctDig])

/-- A plain printable character chunk parses back to its byte. -/
theorem chunkParse_char (b : Nat) (hlo : 32 ≤ b) (hhi : b < 128)
    (hcu : cUnescapes b = none) : ChunkParse [Char.ofNat b] [b] := by
  have h34 : ¬b = 34 := by intro h; subst h; simp [cUnescapes] at hcu
  have h92 : ¬b = 92 := by intro h; subst h; simp [cUnescapes] at hcu
  have htn : (Char.ofNat b).toNat = b := char_toNat_ofNat b (by omega)
  have hq : ¬Char.ofNat b = '"' := by
    intro h
    have h2 := congrArg Char.toNat h
    rw [htn] at h2
    exact h34 h2
  have hw : ¬Char.ofNat b = '\\' := by
    intro h
    have h2 := congrArg Char.toNat h
    rw [htn] at h2
    exact h92 h2
  unfold ChunkParse
  intro rest
  simp [clpIn, hq, hw, htn]

/-- A closed chunk is a fragment. -/
theorem fragParse_of_chunk {p : List Char} {bs : List Nat} (h : ChunkParse p bs) :
    FragParse p bs := by
  unfold FragParse
  intro rest
  rw [h ('"' :: rest)]
  simp [clpIn]

/-- A hex-escape fragment parses back to its byte. -/
theorem fragParse_hex (b : Nat) (h : b < 256) : FragParse (hexFrag b) [b] := by
  have hd1 : isHexDig (hexDigChar (b / 16)) = true := isHexDig_hexDigChar _ (by omega)
  have hd2 : isHexDig (hexDigChar (b % 16)) = true := isHexDig_hexDigChar _ (by omega)
  have hv1 : hexVal (hexDigChar (b / 16)) = b / 16 := hexVal_hexDigChar _ (by omega)
  have hv2 : hexVal (hexDigChar (b % 16)) = b % 16 := hexVal_hexDigChar _ (by omega)
  have hqh : isHexDig '"' = false := by decide
  unfold FragParse
  intro rest
  simp only [hexFrag, List.cons_append, List.nil_append]
  simp [clpIn, clpEsc, List.takeWhile_cons, List.dropWhile_cons, hd1, hd2, hqh,
    hexListVal, hv1, hv2]
  have hb : b / 16 * 16 + b % 16 = b := by omega
  rw [hb]


/-- Prepending a rendered fragment to the joined output prepends its
bytes. -/
theorem joinParse_cons (p : List Char) (bp : List Nat) (ps : List (List Char))
    (bs : List Nat) (hp : FragParse p bp)
    (hps : clpOut (joinSpace (ps.map quoteWrap)) = some bs) :
    clpOut (joinSpace ((p :: ps).map quoteWrap)) = some (bp ++ bs) := by
  unfold FragParse at hp
  cases ps with
  | nil =>
    have hbs : bs = [] := by
      rw [show joinSpace (List.map quoteWrap []) = [] from rfl] at hps
      rw [show clpOut [] = some [] from by simp [clpOut]] at hps
      exact ((Option.some.injEq _ _).mp hps).symm
    subst hbs
    simp only [List.map_cons, List.map_nil, joinSpace]
    rw [show quoteWrap p = '"' :: (p ++ '"' :: ([] : List Char)) from by simp [quoteWrap]]
    simp only [clpOut]
    rw [if_neg (by decide), if_pos (by decide)]
    rw [hp []]
    simp [clpOut]
  | cons p2 ps2 =>
    simp only [List.map_cons, joinSpace]
    rw [show quoteWrap p ++ ' ' :: joinSpace (quoteWrap p2 :: ps2.map quoteWrap) =
      '"' :: (p ++ '"' :: ' ' :: joinSpace (quoteWrap p2 :: ps2.map quoteWrap)) from by
        simp [quoteWrap]]
    simp only [clpOut]
    rw [if_neg (by decide), if_pos (by decide)]
    rw [hp (' ' :: joinSpace (quoteWrap p2 :: ps2.map quoteWrap))]
    rw [show clpOut (' ' :: joinSpace (quoteWrap p2 :: ps2.map quoteWrap)) =
      clpOut (joinSpace (quoteWrap p2 :: ps2.map quoteWrap)) from by
        simp only [clpOut]
        rw [if_pos (by decide)]]
    simp only [List.map_cons, joinSpace] at hps
    rw [hps]
    simp

/-- The fragment loop of bytesToC emits fragments that render and parse
back to the remaining bytes, prefixed by the bytes of the open chunk. -/
theorem bytesToCLoop_parse (bs : List Nat) :
    ∀ (part : List Char) (pbs : List Nat),
      (∀ b ∈ bs, b < 256) → ChunkParse part pbs → (part.isEmpty = true → pbs = []) →
      ∃ parts, bytesToCLoop bs part = some parts ∧
        (∀ p ∈ parts, p.isEmpty = false) ∧
        clpOut (joinSpace (parts.map quoteWrap)) = some (pbs ++ bs) := by
  induction bs with
  | nil =>
    intro part pbs h256 hc hpe
    cases hp : part.isEmpty
    · refine ⟨[part], ?_, ?_, ?_⟩
      · simp [bytesToCLoop, hp]
      · intro p hp2
        have : p = part := by simpa using hp2
        subst this
        exact hp
      · have h1 := joinParse_cons part pbs [] [] (fragParse_of_chunk hc)
          (by simp [joinSpace, clpOut])
        simpa using h1
    · refine ⟨[], ?_, ?_, ?_⟩
      · simp [bytesToCLoop, hp]
      · simp
      · rw [hpe hp]
        simp [joinSpace, clpOut]
  | cons b bs ih =>
    intro part pbs h256 hc hpe
    have hb : b < 256 := h256 b (by simp)
    have h256b : ∀ x ∈ bs, x < 256 := fun x hx => h256 x (by simp [hx])
    rcases hcu : cUnescapes b with _ | k
    · rcases hpr : (decide (32 ≤ b) && decide (b < 128)) with _ | _
      · obtain ⟨parts, hrun, hne, hjoin⟩ := ih [] [] h256b chunkParse_nil (fun _ => rfl)
        refine ⟨(if part.isEmpty then [] else [part]) ++ hexFrag b :: parts, ?_, ?_, ?_⟩
        · simp only [bytesToCLoop]
          rw [if_neg (by omega)]
          simp only [hcu]
          rw [hpr]
          simp only [Bool.false_eq_true, if_false]
          rw [hrun]
          rfl
        · intro p hp
          rcases List.mem_append.mp hp with h1 | h1
          · cases hpe2 : part.isEmpty
            · rw [hpe2] at h1
              simp only [Bool.false_eq_true, if_false] at h1
              have : p = part := by simpa using h1
              subst this
              exact hpe2
            · rw [hpe2] at h1
              simp at h1
          · rcases List.mem_cons.mp h1 with rfl | h2
            · rfl
            · exact hne p h2
        · have hstep1 : clpOut (joinSpace ((hexFrag b :: parts).map quoteWrap)) =
              some ([b] ++ bs) :=
            joinParse_cons _ _ _ _ (fragParse_hex b hb) (by simpa using hjoin)
          cases hpe2 : part.isEmpty
          · simp only [Bool.false_eq_true, if_false]
            have hstep2 := joinParse_cons part pbs (hexFrag b :: parts) ([b] ++ bs)
              (fragParse_of_chunk hc) hstep1
            simpa using hstep2
          · rw [hpe hpe2]
            simpa using hstep1
      · have hpr2 : 32 ≤ b ∧ b < 128 := by simpa using hpr
        have hck := chunkParse_char b hpr2.1 hpr2.2 hcu
        have hc2 : ChunkParse (part ++ [Char.ofNat b]) (pbs ++ [b]) :=
          chunkParse_append hc hck
        obtain ⟨parts, hrun, hne, hjoin⟩ := ih (part ++ [Char.ofNat b]) (pbs ++ [b])
          h256b hc2 (by simp)
        refine ⟨parts, ?_, hne, ?_⟩
        · simp only [bytesToCLoop]
          rw [if_neg (by omega)]
          simp only [hcu]
          rw [if_pos hpr]
          exact hrun
        · rw [hjoin]
          simp
    · have hck := chunkParse_escape b k hcu
      have hc2 : ChunkParse (part ++ ['\\', k]) (pbs ++ [b]) := chunkParse_append hc hck
      obtain ⟨parts, hrun, hne, hjoin⟩ := ih (part ++ ['\\', k]) (pbs ++ [b])
        h256b hc2 (by simp)
      refine ⟨parts, ?_, hne, ?_⟩
      · simp only [bytesToCLoop]
        rw [if_neg (by omega)]
        simp only [hcu]
        exact hrun
      · rw [hjoin]
        simp


/-- claim C4 counterexample: the octal escape backslash-400 scans to the
single byte value 256, on which bytesToC raises (chr fails), so the
round-trip does not even reach the parser for every successful scan. -/
theorem claim_c4_counterexample :
    splitStringBytes ['\\', '4', '0', '0'] = PyResult.ok [256] ∧ bytesToC [256] = none := by
  constructor
  · simp [splitStringBytes, ssbEscape, cEscapes, isOctDig, octVal, PyResult.consByte,
      List.takeWhile, List.dropWhile]
  · rfl

/-- claim C4 (amended): for a scan result whose bytes are all below 256
(the original claim lacks this bound, and backslash-400 violates it),
bytesToC succeeds and parsing its space-separated quoted fragments under C
string-literal rules returns exactly the scanned bytes; and the
backslash-xabcd example scans to the bytes 171, 99, 100 and renders as the
two fragments backslash-xab and cd. -/
theorem claim_c4 (s : List Char) (bs : List Nat)
    (hsplit : splitStringBytes s = PyResult.ok bs) (h256 : ∀ b ∈ bs, b < 256) :
    (∃ out, bytesToC bs = some out ∧ cLiteralParse out false = some bs) ∧
    splitStringBytes ['\\', 'x', 'a', 'b', 'c', 'd'] = PyResult.ok [171, 99, 100] ∧
    bytesToC [171, 99, 100] =
      some ['"', '\\', 'x', 'a', 'b', '"', ' ', '"', 'c', 'd', '"'] ∧
    cLiteralParse ['"', '\\', 'x', 'a', 'b', '"', ' ', '"', 'c', 'd', '"'] false =
      some [171, 99, 100] := by
  refine ⟨?_, ?_, by rfl, ?_⟩
  · obtain ⟨parts, hrun, hne, hjoin⟩ :=
      bytesToCLoop_parse bs [] [] h256 chunkParse_nil (fun _ => rfl)
    refine ⟨joinSpace (parts.map quoteWrap), ?_, ?_⟩
    · rw [bytesToC, hrun]
      have hfe : parts.filter (fun p => !p.isEmpty) = parts :=
        List.filter_eq_self.mpr (fun p hp => by rw [hne p hp]; rfl)
      simp [hfe]
    · simp only [cLiteralParse, Bool.false_eq_true, if_false]
      simpa using hjoin
  · simp [splitStringBytes, ssbEscape, ssbHex, ssbHex2, cEscapes, isHexDig, hexVal,
      isOctDig, PyResult.consByte]
  · simp only [cLiteralParse, Bool.false_eq_true, if_false]
    simp [clpOut, clpIn, clpEsc, isHexDig, hexListVal, hexVal, isOctDig,
      List.takeWhile, List.dropWhile]

/-- claim C4 witness: the round-trip at the scan of "%PDF". -/
theorem claim_c4_witness :
    splitStringBytes ['%', 'P', 'D', 'F'] = PyResult.ok [37, 80, 68, 70] ∧
    (∀ b ∈ [37, 80, 68, 70], b < 256) ∧
    ((∃ out, bytesToC [37, 80, 68, 70] = some out ∧
        cLiteralParse out false = some [37, 80, 68, 70]) ∧
     splitStringBytes ['\\', 'x', 'a', 'b', 'c', 'd'] = PyResult.ok [171, 99, 100] ∧
     bytesToC [171, 99, 100] =
       some ['"', '\\', 'x', 'a', 'b', '"', ' ', '"', 'c', 'd', '"'] ∧
     cLiteralParse ['"', '\\', 'x', 'a', 'b', '"', ' ', '"', 'c', 'd', '"'] false =
       some [171, 99, 100]) :=
  ⟨by simp [splitStringBytes, cEscapes, PyResult.consByte], by decide,
   claim_c4 ['%', 'P', 'D', 'F'] [37, 80, 68, 70]
     (by simp [splitStringBytes, cEscapes, PyResult.consByte]) (by decide)⟩

/-- claim C10: a Test whose MIME is in the exception set is kept by the
pruning pass exactly when some strict descendant carries an allowed MIME;
and on a concrete such tree the kept node survives pruning and
putTestContent then emits the excepted MIME literal with return Match, so
the generated classifier can still return an excepted MIME string. -/
theorem claim_c10 :
    (∀ (exc : List String) (t : Test) (m : String),
       t.setMime = some m → exc.contains m = true → noActive t = true →
       (pruneSubs exc [t] ≠ [] ↔ ∃ u ∈ descendants t, allowedB exc u = true)) ∧
    (pruneTree c10exc c10root =
        Test.mk { fixData with level := -1, active := true } [c10kept] ∧
      c10kept ∈ descendants (pruneTree c10exc c10root) ∧
      c10kept.setMime = some "application/pdf" ∧
      c10exc.contains "application/pdf" = true ∧
      putTestContent ⟨[], [], [], 1⟩ c10kept 2 =
        some ⟨["        *mime = \"application/pdf\";", "        return Match;"],
          [], [], 1⟩) := by
  constructor
  · intro exc t m hm hexc hna
    have hallow : allowedB exc t = false := allowedB_of_excepted exc t m hm hexc
    constructor
    · intro hne
      by_cases hact2 : (pruneTree exc t).active = true
      · rw [pruneTree_active, (noActive_parts t hna).1, Bool.false_or] at hact2
        rw [descendants_eq_subtests]
        exact (hasAllowedDescL_iff exc t.subtests).mp hact2
      · exfalso
        apply hne
        simp [pruneSubs, hallow, hact2]
    · intro ⟨u, hu, hau⟩
      rw [descendants_eq_subtests] at hu
      have hdesc : hasAllowedDescL exc t.subtests = true :=
        (hasAllowedDescL_iff exc t.subtests).mpr ⟨u, hu, hau⟩
      have hact2 : (pruneTree exc t).active = true := by
        rw [pruneTree_active, hdesc]
        simp
      simp [pruneSubs, hallow, hact2]
  · have heq : pruneTree c10exc c10root =
        Test.mk { fixData with level := -1, active := true } [c10kept] := by
      simp [pruneTree, pruneSubs, hasAllowedDesc, hasAllowedDescL, allowedB,
        markActive, c10root, c10child, c10grand, c10kept, c10exc, fixData,
        Test.setMime, Test.data, Test.active, Test.subtests]
    refine ⟨heq, ?_, rfl, by decide, ?_⟩
    · rw [heq]
      simp [descendants, descendantsL]
    · rw [putTestContent]
      simp only [truthy, c10kept, Test.setMime, Test.data]
      simp [quoteForCOpt, quoteForCStr, quoteForC, splitStringBytes, ssbEscape,
        cEscapes, bytesToC, bytesToCLoop, cUnescapes, joinSpace, quoteWrap,
        mkIndent, IndentStep, isOctDig, isHexDig, PyResult.consByte, String.mk]
      constructor <;> rfl

/-- claim C10 witness: the general direction applied to the concrete kept
child of the scenario tree. -/
theorem claim_c10_witness :
    pruneSubs c10exc [c10child] ≠ [] :=
  (claim_c10.1 c10exc c10child "application/pdf" rfl (by decide)
      (by simp [noActive, noActiveL, c10child, c10grand, fixData])).mpr
    ⟨c10grand, by simp [descendants, descendantsL, c10child],
      by simp [allowedB, c10grand, fixData, Test.setMime, Test.data, c10exc]⟩

/-- claim C7: setPriority assigns 0 to the integer test codes, 5 to string
tests, 20 to a search with a missing limit or a limit of at most 5, 90 to a
search whose limit exceeds 5, 80 to regex, and 10 to every other test
code. -/
theorem claim_c7 (tc : String) (lim : Option String) :
    (tc ∈ integerTests → setPriority tc lim = some 0) ∧
    (tc = "string" → setPriority tc lim = some 5) ∧
    (tc = "search" → lim = none → setPriority tc lim = some 20) ∧
    (∀ s v, tc = "search" → lim = some s → pyIntBase0 s = some v →
       (v ≤ 5 → setPriority tc lim = some 20) ∧ (5 < v → setPriority tc lim = some 90)) ∧
    (tc = "regex" → setPriority tc lim = some 80) ∧
    (tc ∉ integerTests → ¬tc = "string" → ¬tc = "search" → ¬tc = "regex" →
       setPriority tc lim = some 10) := by
  refine ⟨?_, ?_, ?_, ?_, ?_, ?_⟩
  · intro h
    unfold setPriority
    rw [if_pos (List.elem_eq_true_of_mem h)]
  · intro h
    subst h
    unfold setPriority
    rw [if_neg (by decide), if_pos (by decide)]
  · intro h hl
    subst h
    subst hl
    unfold setPriority
    rw [if_neg (by decide), if_neg (by decide), if_pos (by decide)]
  · intro s v h hl hv
    subst h
    subst hl
    unfold setPriority
    rw [if_neg (by decide), if_neg (by decide), if_pos (by decide)]
    constructor
    · intro hle
      simp only [hv]
      rw [if_neg (by omega)]
    · intro hgt
      simp only [hv]
      rw [if_pos (by omega)]
  · intro h
    subst h
    unfold setPriority
    rw [if_neg (by decide), if_neg (by decide), if_neg (by decide), if_pos (by decide)]
  · intro h1 h2 h3 h4
    have hcont : ¬(integerTests.contains tc = true) := fun hb => h1 (List.mem_of_elem_eq_true hb)
    have h2b : ¬((tc == "string") = true) := by simpa using h2
    have h3b : ¬((tc == "search") = true) := by simpa using h3
    have h4b : ¬((tc == "regex") = true) := by simpa using h4
    unfold setPriority
    rw [if_neg hcont, if_neg h2b, if_neg h3b, if_neg h4b]

/-- claim C7 witness: concrete evaluations exercising each hypothesis. -/
theorem claim_c7_witness :
    setPriority "beshort" none = some 0 ∧
      setPriority "string" none = some 5 ∧
      setPriority "search" none = some 20 ∧
      setPriority "search" (some "4") = some 20 ∧
      setPriority "search" (some "0x10") = some 90 ∧
      setPriority "regex" (some "4096") = some 80 ∧
      setPriority "float" none = some 10 := by
  refine ⟨?_, ?_, ?_, ?_, ?_, ?_, ?_⟩
  · exact (claim_c7 "beshort" none).1 (by decide)
  · exact (claim_c7 "string" none).2.1 rfl
  · exact (claim_c7 "search" none).2.2.1 rfl rfl
  · exact ((claim_c7 "search" (some "4")).2.2.2.1 "4" 4 rfl rfl (by decide)).1
      (by omega)
  · exact ((claim_c7 "search" (some "0x10")).2.2.2.1 "0x10" 16 rfl rfl
      (by decide)).2 (by omega)
  · exact (claim_c7 "regex" (some "4096")).2.2.2.2.1 rfl
  · exact (claim_c7 "float" none).2.2.2.2.2 (by decide) (by decide) (by decide)
      (by decide)

end Mimemagic
